import Mathlib

/-!
Shallow embedding of the `stf_tools` Footprint Profiler
(`src/tools/stf_imem/stf_imem.hpp`) and the Trace Morpher identifier parsing
(`src/tools/stf_morph/stf_morpher.hpp`), with theorems settling the frozen
claims about the natural-language specification.

Conventions:
* `uint64_t` / `uint32_t` values are modelled as `Nat`; the only place where
  64-bit wraparound is observable in the modelled code is the unsigned
  subtraction in `IMemData::nextStride`, which is modelled explicitly with
  `% 2^64` (see `usub64` / `toInt64`).  The event/instruction counters only
  ever grow by one per processed event, so they are modelled as exact `Nat`s.
* `std::map<uint64_t, IMemData>` is modelled as an association list sorted by
  strictly ascending key (`IMemMap`), with `find?` / `insert` / `update`
  mirroring the member functions used by the profiler (`std::map::insert`
  keeps an existing entry, which only matters for faithfulness: the profiler
  only inserts keys it just failed to find).
* Diagnostic output is modelled by returning the number of `WARN` lines the
  profiler writes to `std::cerr` from `count_impl`.
-/

namespace StfTools

/-- `IMemData::MAX_LHIST_`: capacity of the stride buffer and branch-history
bitset. -/
def MAX_LHIST : Nat := 50

/-- 64-bit unsigned subtraction `a - b` (both operands reduced mod `2^64`). -/
def usub64 (a b : Nat) : Nat :=
  (a % 2 ^ 64 + 2 ^ 64 - b % 2 ^ 64) % 2 ^ 64

/-- Reinterpret a 64-bit unsigned value as a signed `int64_t`
(`static_cast<int64_t>` in `IMemData::nextStride`). -/
def toInt64 (n : Nat) : Int :=
  if n % 2 ^ 64 < 2 ^ 63 then (n % 2 ^ 64 : Int) else (n % 2 ^ 64 : Int) - 2 ^ 64

/-- The per-static-instruction record `IMemData` from `stf_imem.hpp`.
The `std::bitset<MAX_LHIST_>` is modelled as a `List Bool` of length 50
(all-false initialised, like a value-initialised bitset); the
`std::vector<int64_t> recent_strides_` as a `List Int` (constructed with 50
zeroes by the `IMemData` constructor). -/
structure IMemData where
  is_16bit : Bool := false
  opcode : Nat := 0
  phys_pc : Nat := 0
  warmup : Nat := 0
  runlength : Nat := 0
  count : Nat := 0
  is_loadstore : Bool := false
  last_address : Nat := 0
  recent_strides : List Int := []
  recent_strides_idx : Nat := 0
  is_branch : Bool := false
  branch_lhr : List Bool := List.replicate MAX_LHIST false
  branch_lhr_idx : Nat := 0
  deriving DecidableEq, Repr, Inhabited

namespace IMemData

/-- `IMemData::incCount`. -/
def incCount (d : IMemData) : IMemData := { d with count := d.count + 1 }

/-- `IMemData::incWarmup`. -/
def incWarmup (d : IMemData) : IMemData := { d with warmup := d.warmup + 1 }

/-- `IMemData::incRunLength`. -/
def incRunLength (d : IMemData) : IMemData := { d with runlength := d.runlength + 1 }

/-- `IMemData::nextStride`: writes the stride `curr_addr - last_address_`
(64-bit unsigned subtraction reinterpreted as `int64_t`) at the current write
index, advances the index circularly, and updates `last_address_`. -/
def nextStride (d : IMemData) (curr_addr : Nat) : IMemData :=
  { d with
    recent_strides :=
      d.recent_strides.set d.recent_strides_idx (toInt64 (usub64 curr_addr d.last_address)),
    recent_strides_idx :=
      if d.recent_strides_idx = MAX_LHIST - 1 then 0 else d.recent_strides_idx + 1,
    last_address := curr_addr }

/-- `IMemData::nextBranchHistory`: retroactively marks the entry as a branch,
writes the taken bit at the current index (`set`/`reset` of the bitset),
and advances the index circularly. -/
def nextBranchHistory (d : IMemData) (taken : Bool) : IMemData :=
  { d with
    is_branch := true,
    branch_lhr := d.branch_lhr.set d.branch_lhr_idx taken,
    branch_lhr_idx :=
      if d.branch_lhr_idx + 1 = MAX_LHIST then 0 else d.branch_lhr_idx + 1 }

/-- The primary `IMemData` constructor (the three shorter C++ overloads all
delegate to this one with defaulted arguments). -/
def create (is_16bit : Bool) (opcode phys_pc : Nat) (in_warmup : Bool)
    (is_branch br_taken : Bool) (mem_addr : Nat) : IMemData :=
  let d : IMemData :=
    { is_16bit := is_16bit
      opcode := opcode
      phys_pc := phys_pc
      warmup := if in_warmup then 1 else 0
      runlength := if in_warmup then 0 else 1
      count := 1
      is_loadstore := mem_addr ≠ 0
      last_address := mem_addr
      recent_strides := List.replicate MAX_LHIST 0
      recent_strides_idx := 0
      is_branch := is_branch
      branch_lhr := List.replicate MAX_LHIST false
      branch_lhr_idx := 0 }
  if is_branch then d.nextBranchHistory br_taken else d

/-- `IMemData::getOpcodeSize`. -/
def getOpcodeSize (d : IMemData) : Nat := if d.is_16bit then 2 else 4

end IMemData

/-- `std::map<uint64_t, IMemData>` as a key-sorted association list. -/
abbrev IMemMap := List (Nat × IMemData)

namespace IMemMap

/-- `std::map::find` (returning the mapped value when present). -/
def find? : IMemMap → Nat → Option IMemData
  | [], _ => none
  | (k, v) :: rest, key => if key = k then some v else find? rest key

/-- `std::map::insert`: inserts at the sorted position; keeps the existing
entry if the key is already present. -/
def insert : IMemMap → Nat → IMemData → IMemMap
  | [], key, v => [(key, v)]
  | (k, w) :: rest, key, v =>
    if key < k then (key, v) :: (k, w) :: rest
    else if key = k then (k, w) :: rest
    else (k, w) :: insert rest key v

/-- In-place mutation of the entry at `key` through a `std::map` iterator. -/
def update : IMemMap → Nat → (IMemData → IMemData) → IMemMap
  | [], _, _ => []
  | (k, w) :: rest, key, f =>
    if key = k then (k, f w) :: rest else (k, w) :: update rest key f

/-- Sum of the per-entry total counts of one table. -/
def entSum (m : List (Nat × IMemData)) : Nat :=
  (m.map (fun e => e.2.count)).sum

/-- The `std::map` key-ordering invariant: strictly ascending keys. -/
def sortedMap (m : IMemMap) : Prop :=
  List.Chain' (fun a b => a.1 < b.1) m

instance (m : IMemMap) : Decidable (sortedMap m) := by
  unfold sortedMap; infer_instance

end IMemMap

/-- The subset of `STFImemConfig` consumed by the modelled functions
(`count_impl` and the filtering loop of `processTrace_`).  The remaining
fields only affect report formatting and file naming. -/
structure STFImemConfig where
  g_hw_tid : Nat := 0
  g_pid : Nat := 0
  g_tid : Nat := 0
  keep_count : Nat := 2 ^ 64 - 1
  runlength_count : Nat := 2 ^ 64 - 1
  warmup_count : Nat := 0
  deriving DecidableEq, Repr

/-- The per-event view of `stf::STFInst` used by the profiler. Memory
reads/writes are the ordered address lists exposed by
`getMemoryReads()` / `getMemoryWrites()`. -/
structure STFInst where
  pc : Nat := 0
  opcode : Nat := 0
  isOpcode16 : Bool := false
  index : Nat := 0
  valid : Bool := true
  hwtid : Nat := 0
  pid : Nat := 0
  tid : Nat := 0
  isFault : Bool := false
  isLoad : Bool := false
  isStore : Bool := false
  memoryReads : List Nat := []
  memoryWrites : List Nat := []
  isTakenBranch : Bool := false
  deriving DecidableEq, Repr

/-- The address-capture loops of `IMem::count_impl`: `addr` is overwritten by
each access in turn, so the captured value is the *last* address of the
access list (0 when the list is empty or the instruction is neither a load
nor a store). -/
def capturedAddr (inst : STFInst) : Nat :=
  if inst.isLoad then inst.memoryReads.foldl (fun _ a => a) 0
  else if inst.isStore then inst.memoryWrites.foldl (fun _ a => a) 0
  else 0

/-- Mutable state of an `IMemMapVec` profiler: the vector of footprint
tables, the index of the active table (`itv_`), the admitted-instruction
counter and the running report-formatting maxima. -/
structure IMemState where
  imem_mapvec : List IMemMap := [[]]
  itv : Nat := 0
  inst_count : Nat := 0
  max_count : Nat := 0
  max_warmup : Nat := 0
  max_run_length : Nat := 0
  deriving DecidableEq, Repr

namespace IMemState

/-- The active footprint table `*itv_`. -/
def active (s : IMemState) : IMemMap := s.imem_mapvec.getD s.itv []

/-- Sum of per-entry total counts across all footprint tables. -/
def sumCounts (s : IMemState) : Nat :=
  (s.imem_mapvec.map IMemMap.entSum).sum

end IMemState

/-- The `IMemMapVec()` constructor: one empty table, active. -/
def initState : IMemState := {}

/-- The shared increment block of the opcode-match path (`incCount_` followed
by the warmup / runlength decision), duplicated verbatim at three places in
the source (`IMem::count_impl` and both match paths of
`JavaIMem::count_impl`).  Returns the updated entry together with the updated
`max_count_` / `max_warmup_` / `max_run_length_` fields. -/
def matchIncrements (config : STFImemConfig) (s : IMemState) (d : IMemData) :
    IMemData × Nat × Nat × Nat :=
  let in_warmup := s.inst_count < config.warmup_count
  let d1 := d.incCount
  let mc := max s.max_count d1.count
  if in_warmup then
    let d2 := d1.incWarmup
    (d2, mc, max s.max_warmup d2.warmup, s.max_run_length)
  else if s.inst_count < config.runlength_count then
    let d2 := d1.incRunLength
    (d2, mc, s.max_warmup, max s.max_run_length d2.runlength)
  else
    (d1, mc, s.max_warmup, s.max_run_length)

namespace IMem

/-- `IMem::count_impl` (the non-Java profiler).  Returns the new state and the
number of `WARN` diagnostics emitted for this event. -/
def count_impl (config : STFImemConfig) (s : IMemState) (inst : STFInst) :
    IMemState × Nat :=
  let key := inst.pc
  let physpc := 0
  let in_warmup := s.inst_count < config.warmup_count
  let is_load_store_inst := inst.isLoad || inst.isStore
  let addr := capturedAddr inst
  -- Need to use STFDecoder if we want to capture branches that are never taken
  let is_branch := inst.isTakenBranch
  let br_taken := inst.isTakenBranch
  match IMemMap.find? s.active key with
  | none =>
    -- Key not found
    let data :=
      if is_load_store_inst then
        IMemData.create inst.isOpcode16 inst.opcode physpc in_warmup false false addr
      else if is_branch then
        IMemData.create inst.isOpcode16 inst.opcode physpc in_warmup is_branch br_taken 0
      else
        IMemData.create inst.isOpcode16 inst.opcode physpc in_warmup false false 0
    ({ s with imem_mapvec := s.imem_mapvec.set s.itv (IMemMap.insert s.active key data) }, 0)
  | some d =>
    if d.opcode = inst.opcode then
      -- Key and opcode found
      let t := matchIncrements config s d
      let d3 :=
        if is_load_store_inst then t.1.nextStride addr
        else if is_branch then t.1.nextBranchHistory br_taken
        else t.1
      ({ s with
          imem_mapvec := s.imem_mapvec.set s.itv (IMemMap.update s.active key (fun _ => d3)),
          max_count := t.2.1, max_warmup := t.2.2.1, max_run_length := t.2.2.2 }, 0)
    else
      -- different opcode: one WARN line, entry untouched
      (s, 1)

end IMem

/-- The table-scan loop of `JavaIMem::count_impl`: walks the table vector from
the front looking for a `PC + opcode` match; returns the absolute index of the
first matching table (`found` / `it`) and, threaded through, the absolute
index of the last table visited that does not contain the key (`itt`). -/
def javaSearch : List IMemMap → Nat → Nat → Nat → Option Nat → Option Nat × Option Nat
  | [], _, _, _, itt => (none, itt)
  | m :: rest, key, opc, i, itt =>
    match IMemMap.find? m key with
    | some d =>
      if d.opcode = opc then (some i, itt)
      else javaSearch rest key opc (i + 1) itt
    | none => javaSearch rest key opc (i + 1) (some i)

namespace JavaIMem

/-- The fallback (`else`) branch of `JavaIMem::count_impl`, taken when the
active table does not hold the key with a matching opcode. -/
def fallback (config : STFImemConfig) (s : IMemState) (inst : STFInst) :
    IMemState × Nat :=
  let key := inst.pc
  let physpc := 0
  let in_warmup := s.inst_count < config.warmup_count
  match javaSearch s.imem_mapvec key inst.opcode 0 none with
  | (some i, _) =>
    -- same key and opcode found in table i: take the match path there,
    -- that table becomes the active one
    match IMemMap.find? (s.imem_mapvec.getD i []) key with
    | some d =>
      let t := matchIncrements config s d
      ({ s with
          imem_mapvec :=
            s.imem_mapvec.set i (IMemMap.update (s.imem_mapvec.getD i []) key (fun _ => t.1)),
          itv := i, max_count := t.2.1, max_warmup := t.2.2.1, max_run_length := t.2.2.2 }, 0)
    | none => (s, 0)  -- unreachable: javaSearch only reports found keys
  | (none, itt) =>
    let data := IMemData.create inst.isOpcode16 inst.opcode physpc in_warmup false false 0
    match itt with
    | none =>
      -- all maps contain the key but different opcodes, create a new map
      ({ s with
          imem_mapvec := IMemMap.insert [] key data :: s.imem_mapvec,
          itv := 0 }, 0)
    | some j =>
      -- `itt` remembers a table lacking the key; switch to it only when the
      -- active table holds the key (with a different opcode)
      let tgt := if (IMemMap.find? s.active key).isSome then j else s.itv
      ({ s with
          imem_mapvec :=
            s.imem_mapvec.set tgt (IMemMap.insert (s.imem_mapvec.getD tgt []) key data),
          itv := tgt }, 0)

/-- `JavaIMem::count_impl`.  Returns the new state and the number of `WARN`
diagnostics emitted for this event (always 0: the Java variant prints no
mismatch warning). -/
def count_impl (config : STFImemConfig) (s : IMemState) (inst : STFInst) :
    IMemState × Nat :=
  let key := inst.pc
  match IMemMap.find? s.active key with
  | some d =>
    if d.opcode = inst.opcode then
      -- Key and opcode found
      let t := matchIncrements config s d
      ({ s with
          imem_mapvec := s.imem_mapvec.set s.itv (IMemMap.update s.active key (fun _ => t.1)),
          max_count := t.2.1, max_warmup := t.2.2.1, max_run_length := t.2.2.2 }, 0)
    else fallback config s inst
  | none => fallback config s inst

end JavaIMem

/-- The filtering loop of `IMemMapVecIntf::processTrace_`: per event, the
hardware-tid / pid / tid filters and the fault discard run first; the
surviving ("admitted") events are handed to `count_impl`, then
`inst_count_` is incremented and compared against `keep_count`.
Returns the final state and the total number of `WARN` diagnostics. -/
def processList (ci : STFImemConfig → IMemState → STFInst → IMemState × Nat)
    (config : STFImemConfig) : IMemState → List STFInst → IMemState × Nat
  | s, [] => (s, 0)
  | s, inst :: rest =>
    if config.g_hw_tid ≠ 0 ∧ config.g_hw_tid ≠ inst.hwtid then
      processList ci config s rest
    else if config.g_pid ≠ 0 ∧ config.g_pid ≠ inst.pid then
      processList ci config s rest
    else if config.g_tid ≠ 0 ∧ config.g_tid ≠ inst.tid then
      processList ci config s rest
    else if inst.isFault then
      -- ignore faulting instructions since they will be replayed
      processList ci config s rest
    else
      let r1 := ci config s inst
      let s2 := { r1.1 with inst_count := r1.1.inst_count + 1 }
      if config.keep_count ≤ s2.inst_count then (s2, r1.2)
      else
        let r3 := processList ci config s2 rest
        (r3.1, r1.2 + r3.2)

/-- A full `IMem` profiler run over an event list, from the freshly
constructed state. -/
def IMem.processTrace (config : STFImemConfig) (insts : List STFInst) :
    IMemState × Nat :=
  processList IMem.count_impl config initState insts

/-- A full `JavaIMem` profiler run over an event list, from the freshly
constructed state. -/
def JavaIMem.processTrace (config : STFImemConfig) (insts : List STFInst) :
    IMemState × Nat :=
  processList JavaIMem.count_impl config initState insts

/-! ## The report loop of `IMemMapVec::print`

The linear report walks `imem_mapvec_` with reverse iterators
(`rbegin()`..`rend()`) and each table in its (ascending-key) iteration
order.  In sorted-output mode the same walk groups consecutive entries into
contiguous blocks (`current_block` / `block_count`), flushing a block into
the `std::multimap<SortedMapKey, SortedVector>` whenever the contiguity
check `prev_pc + prev_size == inst_pc` fails, plus a final flush; the sorted
report then walks the multimap with reverse iterators and accumulates
`cumulative_count` over every printed entry. -/

/-- The order in which `IMemMapVec::print` emits the footprint tables:
reverse vector order. -/
def linearTables (s : IMemState) : List IMemMap :=
  s.imem_mapvec.reverse

/-- The full entry stream of the linear report: tables in `linearTables`
order, entries of each table in map order. -/
def linearEntries (s : IMemState) : List (Nat × IMemData) :=
  (linearTables s).foldl (fun acc m => acc ++ m) []

/-- One flushed block of the sorted report: the `SortedMapKey`
(`block_count`, first entry's PC) together with the `SortedVector` of
entries. -/
structure SortedBlock where
  count : Nat
  pc : Nat
  entries : List (Nat × IMemData)
  deriving DecidableEq, Repr

/-- The in-flight block-grouping state of the `print` loop. -/
structure BlockAcc where
  first : Bool := true
  prev_pc : Nat := 0
  prev_size : Nat := 0
  current_block : List (Nat × IMemData) := []
  block_count : Nat := 0
  blocks : List SortedBlock := []
  deriving DecidableEq, Repr

/-- One iteration of the entry loop of `print` (sorted-output bookkeeping):
flush the current block at a contiguity break, then append the entry. -/
def blockStep (acc : BlockAcc) (e : Nat × IMemData) : BlockAcc :=
  let acc1 :=
    if acc.first then { acc with first := false }
    else if acc.prev_pc + acc.prev_size ≠ e.1 then
      { acc with
        blocks := acc.blocks ++
          [⟨acc.block_count, ((acc.current_block.headD (0, default)).1), acc.current_block⟩],
        current_block := [], block_count := 0 }
    else acc
  { acc1 with
    current_block := acc1.current_block ++ [e],
    block_count := acc1.block_count + e.2.count,
    prev_pc := e.1,
    prev_size := e.2.getOpcodeSize }

/-- All blocks flushed by the `print` loop, in flush (emplace) order,
including the final flush of a non-empty trailing block. -/
def collectBlocks (s : IMemState) : List SortedBlock :=
  let fin := (linearEntries s).foldl blockStep {}
  if fin.current_block.isEmpty then fin.blocks
  else fin.blocks ++
    [⟨fin.block_count, ((fin.current_block.headD (0, default)).1), fin.current_block⟩]

/-- `SortedMapKey::operator<`: by count, ties broken by *descending* PC. -/
def keyLt (a b : Nat × Nat) : Bool :=
  a.1 < b.1 || (a.1 = b.1 && b.2 < a.2)

/-- `std::multimap` insertion: a new element is placed at the upper bound of
its key, i.e. before the first strictly greater element (so elements with
equivalent keys stay in insertion order). -/
def mmInsert (b : SortedBlock) : List SortedBlock → List SortedBlock
  | [] => [b]
  | e :: rest =>
    if keyLt (b.count, b.pc) (e.count, e.pc) then b :: e :: rest
    else e :: mmInsert b rest

/-- The content of `sorted_map` (ascending `SortedMapKey` order, insertion
order among equivalent keys). -/
def sortedMapOf (s : IMemState) : List SortedBlock :=
  (collectBlocks s).foldl (fun m b => mmInsert b m) []

/-- The sorted report's block emission order: the multimap walked with
reverse iterators (descending `SortedMapKey`). -/
def sortedEmission (s : IMemState) : List SortedBlock :=
  (sortedMapOf s).reverse

/-- The final value of `cumulative_count`: the per-entry counts of every
entry printed by the sorted report, summed in emission order.  The
end-of-report assertion `stf_assert(cumulative_count == inst_count_)`
compares this value against the admitted-instruction counter. -/
def cumulativeFinal (s : IMemState) : Nat :=
  ((sortedEmission s).map (fun b => IMemMap.entSum b.entries)).sum

/-! ## `STFMorpher::convertMorphId_` (stf_morpher.hpp)

The morph-target identifier string is converted with `std::stoull(id_str)`
(base 10) for sequence-index (`STFID`) morphs and `std::stoull(id_str, 0,
16)` for PC morphs.  Strings are modelled as lists of character codes
(`std::string` bytes); `stoull` is modelled with `strtoull` semantics:
optional whitespace, optional sign (negation wraps mod `2^64`), an optional
`0x`/`0X` prefix in base 16 when a hex digit follows, then the longest
non-empty digit prefix; no digits or a value above `ULLONG_MAX` throws
(modelled as `none`). -/

/-- The two morph identifier kinds (`STFMorpher::MorphType`). -/
inductive MorphType where
  | STFID
  | PC
  deriving DecidableEq, Repr

/-- Numeric value of one character code as a digit in the given base
(`strtoull` accepts `0-9`, `a-z`, `A-Z` below the base). -/
def digitVal? (base : Nat) (c : Nat) : Option Nat :=
  let v :=
    if 48 ≤ c ∧ c ≤ 57 then some (c - 48)
    else if 97 ≤ c ∧ c ≤ 122 then some (c - 97 + 10)
    else if 65 ≤ c ∧ c ≤ 90 then some (c - 65 + 10)
    else none
  match v with
  | some d => if d < base then some d else none
  | none => none

/-- `isspace` for the characters `strtoull` skips. -/
def isSpaceChar (c : Nat) : Bool :=
  c = 32 ∨ c = 9 ∨ c = 10 ∨ c = 11 ∨ c = 12 ∨ c = 13

/-- Leading-whitespace skip of `strtoull`. -/
def skipWs : List Nat → List Nat
  | [] => []
  | c :: rest => if isSpaceChar c then skipWs rest else c :: rest

/-- Optional sign of `strtoull`; returns whether the value is negated. -/
def readSign : List Nat → Bool × List Nat
  | [] => (false, [])
  | c :: rest =>
    if c = 45 then (true, rest)
    else if c = 43 then (false, rest)
    else (false, c :: rest)

/-- Base-16 `0x`/`0X` prefix, consumed only when a hex digit follows
(otherwise `strtoull` reads just the leading `0`). -/
def stripHexPrefix (l : List Nat) : List Nat :=
  match l with
  | c0 :: x :: d :: rest =>
    if c0 = 48 ∧ (x = 120 ∨ x = 88) ∧ (digitVal? 16 d).isSome then d :: rest
    else c0 :: x :: d :: rest
  | _ => l

/-- Longest-digit-prefix accumulation loop of `strtoull`. -/
def parseDigitsLoop (base : Nat) : List Nat → Nat → Nat
  | [], acc => acc
  | c :: rest, acc =>
    match digitVal? base c with
    | some d => parseDigitsLoop base rest (acc * base + d)
    | none => acc

/-- The digit-accumulation and range-check tail of `strtoull`, after
whitespace, sign and base prefix have been consumed. -/
def stoullCore (base : Nat) (neg : Bool) (s3 : List Nat) : Option Nat :=
  match s3 with
  | [] => none
  | c :: rest =>
    match digitVal? base c with
    | none => none
    | some d =>
      let v := parseDigitsLoop base rest d
      if 2 ^ 64 ≤ v then none
      else some (if neg then (2 ^ 64 - v % 2 ^ 64) % 2 ^ 64 else v)

/-- `std::stoull(s, nullptr, base)` over a character-code list. -/
def stoull (base : Nat) (s : List Nat) : Option Nat :=
  let s1 := skipWs s
  let sg := readSign s1
  let s3 := if base = 16 then stripHexPrefix sg.2 else sg.2
  stoullCore base sg.1 s3

/-- `STFMorpher::convertMorphId_`: decimal for `STFID` morphs, hexadecimal
for `PC` morphs. -/
def convertMorphId (morph_type : MorphType) (id_str : List Nat) : Option Nat :=
  match morph_type with
  | MorphType.STFID => stoull 10 id_str
  | MorphType.PC => stoull 16 id_str

/-- Mathematical value of a digit list read in the given base (the
spec-side meaning of a decimal / hexadecimal numeral). -/
def ofDigits (base : Nat) (ds : List Nat) : Nat :=
  ds.foldl (fun a d => a * base + d) 0

/-- Render a list of decimal digit values as their ASCII character codes. -/
def renderDec (ds : List Nat) : List Nat :=
  ds.map (fun d => 48 + d)

/-! ## Derived sums used by the claims -/

/-- Sum of one table's per-entry `warmup + runlength`. -/
def wrSum (m : IMemMap) : Nat :=
  (m.map (fun e => e.2.warmup + e.2.runlength)).sum

/-- Sum of per-entry `warmup + runlength` across all tables. -/
def IMemState.sumWR (s : IMemState) : Nat :=
  (s.imem_mapvec.map wrSum).sum

/-- Repeated `IMemData::nextStride` calls. -/
def pushStrides (d : IMemData) (addrs : List Nat) : IMemData :=
  addrs.foldl IMemData.nextStride d

/-- Repeated `IMemData::nextBranchHistory` calls. -/
def pushBranches (d : IMemData) (bs : List Bool) : IMemData :=
  bs.foldl IMemData.nextBranchHistory d

/-! ## Helper lemmas: association-list maps -/

namespace IMemMap

theorem find?_insert_self {m : IMemMap} {k : Nat} {v : IMemData}
    (h : find? m k = none) : find? (insert m k v) k = some v := by
  induction m with
  | nil => simp [find?, insert]
  | cons e rest ih =>
    obtain ⟨k0, w⟩ := e
    by_cases hk : k = k0
    · simp [find?, hk] at h
    · simp only [find?, if_neg hk] at h
      by_cases hlt : k < k0
      · simp [insert, hlt, find?]
      · simp [insert, hlt, hk, find?, ih h]

theorem find?_insert_ne {m : IMemMap} {k k' : Nat} {v : IMemData}
    (h : k' ≠ k) : find? (insert m k v) k' = find? m k' := by
  induction m with
  | nil => simp [find?, insert, h]
  | cons e rest ih =>
    obtain ⟨k0, w⟩ := e
    by_cases hlt : k < k0
    · simp [insert, hlt, find?, h]
    · by_cases hk : k = k0
      · simp [insert, hlt, hk]
      · simp only [insert, if_neg hlt, if_neg hk]
        by_cases hk' : k' = k0
        · simp [find?, hk']
        · simp [find?, hk', ih]

theorem find?_update_self {m : IMemMap} {k : Nat} {d : IMemData}
    {f : IMemData → IMemData} (h : find? m k = some d) :
    find? (update m k f) k = some (f d) := by
  induction m with
  | nil => simp [find?] at h
  | cons e rest ih =>
    obtain ⟨k0, w⟩ := e
    by_cases hk : k = k0
    · simp only [find?, if_pos hk] at h
      injection h with h
      subst h
      simp [update, hk, find?]
    · simp only [find?, if_neg hk] at h
      simp [update, hk, find?, ih h]

theorem find?_update_ne {m : IMemMap} {k k' : Nat}
    {f : IMemData → IMemData} (h : k' ≠ k) :
    find? (update m k f) k' = find? m k' := by
  induction m with
  | nil => simp [update]
  | cons e rest ih =>
    obtain ⟨k0, w⟩ := e
    by_cases hk : k = k0
    · subst hk
      simp [update, find?, h]
    · by_cases hk' : k' = k0
      · simp [update, hk, find?, hk']
      · simp [update, hk, find?, hk', ih]

theorem sum_insert_fresh {m : IMemMap} {k : Nat} {v : IMemData}
    (f : Nat × IMemData → Nat) (h : find? m k = none) :
    ((insert m k v).map f).sum = (m.map f).sum + f (k, v) := by
  induction m with
  | nil => simp [insert]
  | cons e rest ih =>
    obtain ⟨k0, w⟩ := e
    by_cases hk : k = k0
    · simp [find?, hk] at h
    · simp only [find?, if_neg hk] at h
      by_cases hlt : k < k0
      · simp [insert, hlt]; ring
      · simp [insert, hlt, hk, ih h]; ring

theorem sum_update {m : IMemMap} {k : Nat} {d d' : IMemData}
    (f : Nat × IMemData → Nat) (h : find? m k = some d) :
    ((update m k (fun _ => d')).map f).sum + f (k, d) = (m.map f).sum + f (k, d') := by
  induction m with
  | nil => simp [find?] at h
  | cons e rest ih =>
    obtain ⟨k0, w⟩ := e
    by_cases hk : k = k0
    · simp only [find?, if_pos hk] at h
      obtain rfl : w = d := by injection h
      subst hk
      simp [update]; ring
    · simp only [find?, if_neg hk] at h
      have := ih h
      simp only [update, if_neg hk, List.map_cons, List.sum_cons]
      omega

theorem mem_insert {m : IMemMap} {k : Nat} {v : IMemData} {x : Nat × IMemData}
    (h : x ∈ insert m k v) : x = (k, v) ∨ x ∈ m := by
  induction m with
  | nil => simpa [insert] using h
  | cons e rest ih =>
    obtain ⟨k0, w⟩ := e
    by_cases hlt : k < k0
    · simp only [insert, if_pos hlt, List.mem_cons] at h
      rcases h with h | h | h
      · exact Or.inl h
      · exact Or.inr (by simp [h])
      · exact Or.inr (by simp [h])
    · by_cases hk : k = k0
      · simp only [insert, if_neg hlt, if_pos hk, List.mem_cons] at h
        rcases h with h | h
        · exact Or.inr (by simp [h])
        · exact Or.inr (by simp [h])
      · simp only [insert, if_neg hlt, if_neg hk, List.mem_cons] at h
        rcases h with h | h
        · exact Or.inr (by simp [h])
        · rcases ih h with h' | h'
          · exact Or.inl h'
          · exact Or.inr (by simp [h'])

theorem insert_pairwise {m : IMemMap} {k : Nat} {v : IMemData}
    (hs : List.Pairwise (fun a b => a.1 < b.1) m) (h : find? m k = none) :
    List.Pairwise (fun a b => a.1 < b.1) (insert m k v) := by
  induction m with
  | nil => simp [insert]
  | cons e rest ih =>
    obtain ⟨k0, w⟩ := e
    rw [List.pairwise_cons] at hs
    by_cases hk : k = k0
    · simp [find?, hk] at h
    · simp only [find?, if_neg hk] at h
      by_cases hlt : k < k0
      · simp only [insert, if_pos hlt]
        refine List.Pairwise.cons ?_ (List.Pairwise.cons hs.1 hs.2)
        intro x hx
        rcases List.mem_cons.mp hx with rfl | hx2
        · exact hlt
        · exact lt_trans hlt (hs.1 x hx2)
      · simp only [insert, if_neg hlt, if_neg hk]
        refine List.Pairwise.cons ?_ (ih hs.2 h)
        intro x hx
        rcases mem_insert hx with rfl | hx2
        · exact lt_of_le_of_ne (Nat.le_of_not_lt hlt) (Ne.symm hk)
        · exact hs.1 x hx2

theorem update_keys : ∀ (m : IMemMap) (k : Nat) (f : IMemData → IMemData),
    (update m k f).map Prod.fst = m.map Prod.fst := by
  intro m k f
  induction m with
  | nil => simp [update]
  | cons e rest ih =>
    obtain ⟨k0, w⟩ := e
    by_cases hk : k = k0 <;> simp [update, hk, ih]

theorem update_pairwise {m : IMemMap} {k : Nat} {f : IMemData → IMemData}
    (hs : List.Pairwise (fun a b => a.1 < b.1) m) :
    List.Pairwise (fun a b => a.1 < b.1) (update m k f) := by
  have h1 : List.Pairwise (· < ·) ((update m k f).map Prod.fst) := by
    rw [update_keys]
    exact List.pairwise_map.mpr hs
  exact List.pairwise_map.mp h1

end IMemMap

theorem sum_insert_le {m : IMemMap} {k : Nat} {v : IMemData}
    (f : Nat × IMemData → Nat) :
    ((IMemMap.insert m k v).map f).sum ≤ (m.map f).sum + f (k, v) := by
  induction m with
  | nil => simp [IMemMap.insert]
  | cons e rest ih =>
    obtain ⟨k0, w⟩ := e
    by_cases hlt : k < k0
    · simp [IMemMap.insert, hlt]; omega
    · by_cases hk : k = k0
      · simp [IMemMap.insert, hlt, hk]
      · simp only [IMemMap.insert, if_neg hlt, if_neg hk, List.map_cons, List.sum_cons]
        omega

/-- Summing a mapped function over `l.set i m` swaps out the contribution of
the old element at `i`. -/
theorem mapSum_set {α : Type} (f : α → Nat) (dflt : α) :
    ∀ (l : List α) (i : Nat) (m : α), i < l.length →
      ((l.set i m).map f).sum + f (l.getD i dflt) = (l.map f).sum + f m := by
  intro l
  induction l with
  | nil => intro i m h; simp at h
  | cons x rest ih =>
    intro i m h
    cases i with
    | zero => simp [List.getD]; ring
    | succ j =>
      simp only [List.length_cons, Nat.succ_lt_succ_iff] at h
      have := ih j m h
      simp only [List.set_cons_succ, List.map_cons, List.sum_cons, List.getD_cons_succ]
      omega

/-! ## Helper lemmas: `IMemData` operations -/

namespace IMemData

@[simp] theorem nextStride_count (d : IMemData) (a : Nat) :
    (d.nextStride a).count = d.count := rfl
@[simp] theorem nextStride_warmup (d : IMemData) (a : Nat) :
    (d.nextStride a).warmup = d.warmup := rfl
@[simp] theorem nextStride_runlength (d : IMemData) (a : Nat) :
    (d.nextStride a).runlength = d.runlength := rfl
@[simp] theorem nextStride_is_branch (d : IMemData) (a : Nat) :
    (d.nextStride a).is_branch = d.is_branch := rfl
@[simp] theorem nextStride_branch_lhr (d : IMemData) (a : Nat) :
    (d.nextStride a).branch_lhr = d.branch_lhr := rfl
@[simp] theorem nextStride_branch_lhr_idx (d : IMemData) (a : Nat) :
    (d.nextStride a).branch_lhr_idx = d.branch_lhr_idx := rfl
@[simp] theorem nextStride_opcode (d : IMemData) (a : Nat) :
    (d.nextStride a).opcode = d.opcode := rfl

@[simp] theorem nextBranchHistory_count (d : IMemData) (t : Bool) :
    (d.nextBranchHistory t).count = d.count := rfl
@[simp] theorem nextBranchHistory_warmup (d : IMemData) (t : Bool) :
    (d.nextBranchHistory t).warmup = d.warmup := rfl
@[simp] theorem nextBranchHistory_runlength (d : IMemData) (t : Bool) :
    (d.nextBranchHistory t).runlength = d.runlength := rfl
@[simp] theorem nextBranchHistory_opcode (d : IMemData) (t : Bool) :
    (d.nextBranchHistory t).opcode = d.opcode := rfl
@[simp] theorem nextBranchHistory_is_branch (d : IMemData) (t : Bool) :
    (d.nextBranchHistory t).is_branch = true := rfl
@[simp] theorem nextBranchHistory_branch_lhr (d : IMemData) (t : Bool) :
    (d.nextBranchHistory t).branch_lhr = d.branch_lhr.set d.branch_lhr_idx t := rfl

@[simp] theorem create_count (a : Bool) (o p : Nat) (w br t : Bool) (ad : Nat) :
    (create a o p w br t ad).count = 1 := by
  cases br <;> simp [create, nextBranchHistory]

theorem create_wr (a : Bool) (o p : Nat) (w br t : Bool) (ad : Nat) :
    (create a o p w br t ad).warmup + (create a o p w br t ad).runlength = 1 := by
  cases br <;> cases w <;> simp [create, nextBranchHistory]

@[simp] theorem create_opcode (a : Bool) (o p : Nat) (w br t : Bool) (ad : Nat) :
    (create a o p w br t ad).opcode = o := by
  cases br <;> simp [create, nextBranchHistory]

@[simp] theorem create_last_address (a : Bool) (o p : Nat) (w br t : Bool) (ad : Nat) :
    (create a o p w br t ad).last_address = ad := by
  cases br <;> simp [create, nextBranchHistory]

@[simp] theorem create_is_loadstore (a : Bool) (o p : Nat) (w br t : Bool) (ad : Nat) :
    (create a o p w br t ad).is_loadstore = decide (ad ≠ 0) := by
  cases br <;> simp [create, nextBranchHistory]

@[simp] theorem create_is_branch (a : Bool) (o p : Nat) (w br t : Bool) (ad : Nat) :
    (create a o p w br t ad).is_branch = br := by
  cases br <;> simp [create, nextBranchHistory]

theorem create_strides_length (a : Bool) (o p : Nat) (w br t : Bool) (ad : Nat) :
    (create a o p w br t ad).recent_strides.length = MAX_LHIST := by
  cases br <;> simp [create, nextBranchHistory]

theorem create_lhr_length (a : Bool) (o p : Nat) (w br t : Bool) (ad : Nat) :
    (create a o p w br t ad).branch_lhr.length = MAX_LHIST := by
  cases br <;> simp [create, nextBranchHistory, MAX_LHIST]

theorem create_not_branch (a : Bool) (o p : Nat) (w : Bool) (t : Bool) (ad : Nat) :
    (create a o p w false t ad).branch_lhr = List.replicate MAX_LHIST false ∧
    (create a o p w false t ad).branch_lhr_idx = 0 := by
  simp [create]

theorem create_taken_branch (a : Bool) (o p : Nat) (w : Bool) (ad : Nat) :
    (create a o p w true true ad).branch_lhr =
      (List.replicate MAX_LHIST false).set 0 true ∧
    (create a o p w true true ad).branch_lhr_idx = 1 := by
  simp [create, nextBranchHistory, MAX_LHIST]

end IMemData

theorem matchIncrements_count (c : STFImemConfig) (s : IMemState) (d : IMemData) :
    (matchIncrements c s d).1.count = d.count + 1 := by
  simp only [matchIncrements]
  split_ifs <;>
    simp [IMemData.incCount, IMemData.incWarmup, IMemData.incRunLength]

theorem matchIncrements_wr (c : STFImemConfig) (s : IMemState) (d : IMemData) :
    (matchIncrements c s d).1.warmup + (matchIncrements c s d).1.runlength ≤
      d.warmup + d.runlength + 1 := by
  simp only [matchIncrements]
  split_ifs <;>
    simp [IMemData.incCount, IMemData.incWarmup, IMemData.incRunLength] <;> omega

theorem matchIncrements_branchFields (c : STFImemConfig) (s : IMemState) (d : IMemData) :
    (matchIncrements c s d).1.is_branch = d.is_branch ∧
    (matchIncrements c s d).1.branch_lhr = d.branch_lhr ∧
    (matchIncrements c s d).1.branch_lhr_idx = d.branch_lhr_idx := by
  simp only [matchIncrements]
  split_ifs <;>
    simp [IMemData.incCount, IMemData.incWarmup, IMemData.incRunLength]

/-! ## Helper lemmas: the Java table scan -/

theorem javaSearch_found :
    ∀ (l : List IMemMap) (key opc i : Nat) (itt0 : Option Nat) (r : Nat),
      (javaSearch l key opc i itt0).1 = some r →
      ∃ k, k < l.length ∧ r = i + k ∧
        ∃ d, IMemMap.find? (l.getD k []) key = some d ∧ d.opcode = opc := by
  intro l
  induction l with
  | nil => intro key opc i itt0 r h; simp [javaSearch] at h
  | cons m rest ih =>
    intro key opc i itt0 r h
    rcases hf : IMemMap.find? m key with _ | d
    · simp only [javaSearch, hf] at h
      obtain ⟨k, hk, hr, d, hd, hop⟩ := ih key opc (i + 1) (some i) r h
      exact ⟨k + 1, by simpa using Nat.succ_lt_succ hk, by omega, d, by simpa using hd, hop⟩
    · simp only [javaSearch, hf] at h
      by_cases hop : d.opcode = opc
      · rw [if_pos hop] at h
        simp only [Option.some.injEq] at h
        exact ⟨0, by simp, by omega, d, by simpa using hf, hop⟩
      · rw [if_neg hop] at h
        obtain ⟨k, hk, hr, d', hd, hop'⟩ := ih key opc (i + 1) itt0 r h
        exact ⟨k + 1, by simpa using Nat.succ_lt_succ hk, by omega, d', by simpa using hd, hop'⟩

theorem javaSearch_none :
    ∀ (l : List IMemMap) (key opc i : Nat) (itt0 : Option Nat),
      (javaSearch l key opc i itt0).1 = none →
      ∀ k, k < l.length → ∀ d, IMemMap.find? (l.getD k []) key = some d →
        d.opcode ≠ opc := by
  intro l
  induction l with
  | nil => intro key opc i itt0 h k hk; simp at hk
  | cons m rest ih =>
    intro key opc i itt0 h k hk d hd
    rcases hf : IMemMap.find? m key with _ | d0
    · simp only [javaSearch, hf] at h
      cases k with
      | zero => simp [hf] at hd
      | succ k' =>
        simp only [List.getD_cons_succ] at hd
        exact ih key opc (i + 1) (some i) h k' (by simpa using hk) d hd
    · simp only [javaSearch, hf] at h
      by_cases hop : d0.opcode = opc
      · rw [if_pos hop] at h; simp at h
      · rw [if_neg hop] at h
        cases k with
        | zero =>
          simp only [List.getD_cons_zero] at hd
          rw [hf] at hd
          injection hd with hd
          subst hd
          exact hop
        | succ k' =>
          simp only [List.getD_cons_succ] at hd
          exact ih key opc (i + 1) itt0 h k' (by simpa using hk) d hd

theorem javaSearch_itt :
    ∀ (l : List IMemMap) (key opc i : Nat) (itt0 : Option Nat) (j : Nat),
      (javaSearch l key opc i itt0).2 = some j →
      itt0 = some j ∨
        (∃ k, k < l.length ∧ j = i + k ∧ IMemMap.find? (l.getD k []) key = none) := by
  intro l
  induction l with
  | nil => intro key opc i itt0 j h; simp [javaSearch] at h; simp [h]
  | cons m rest ih =>
    intro key opc i itt0 j h
    rcases hf : IMemMap.find? m key with _ | d
    · simp only [javaSearch, hf] at h
      rcases ih key opc (i + 1) (some i) j h with h' | ⟨k, hk, hj, hfind⟩
      · injection h' with h'
        exact Or.inr ⟨0, by simp, by omega, by simpa [← h'] using hf⟩
      · exact Or.inr ⟨k + 1, by simpa using Nat.succ_lt_succ hk, by omega, by simpa using hfind⟩
    · simp only [javaSearch, hf] at h
      by_cases hop : d.opcode = opc
      · rw [if_pos hop] at h
        exact Or.inl h
      · rw [if_neg hop] at h
        rcases ih key opc (i + 1) itt0 j h with h' | ⟨k, hk, hj, hfind⟩
        · exact Or.inl h'
        · exact Or.inr ⟨k + 1, by simpa using Nat.succ_lt_succ hk, by omega, by simpa using hfind⟩

theorem javaSearch_nn :
    ∀ (l : List IMemMap) (key opc i : Nat) (itt0 : Option Nat),
      javaSearch l key opc i itt0 = (none, none) →
      itt0 = none ∧ ∀ k, k < l.length → (IMemMap.find? (l.getD k []) key).isSome := by
  intro l
  induction l with
  | nil =>
    intro key opc i itt0 h
    simp only [javaSearch, Prod.mk.injEq] at h
    exact ⟨h.2, by intro k hk; simp at hk⟩
  | cons m rest ih =>
    intro key opc i itt0 h
    rcases hf : IMemMap.find? m key with _ | d
    · simp only [javaSearch, hf] at h
      obtain ⟨h1, _⟩ := ih key opc (i + 1) (some i) h
      simp at h1
    · simp only [javaSearch, hf] at h
      by_cases hop : d.opcode = opc
      · rw [if_pos hop] at h
        simp at h
      · rw [if_neg hop] at h
        obtain ⟨h1, h2⟩ := ih key opc (i + 1) itt0 h
        refine ⟨h1, ?_⟩
        intro k hk
        cases k with
        | zero => simp [hf]
        | succ k' => simpa using h2 k' (by simpa using hk)

/-! ## Helper lemmas: warm-up / run-length mass (claim C6) -/

@[simp] theorem IMemState.active_def (s : IMemState) :
    s.active = s.imem_mapvec.getD s.itv [] := rfl

theorem wrSum_set_insert (l : List IMemMap) (i key : Nat) (v : IMemData)
    (hv : v.warmup + v.runlength = 1) :
    ((l.set i (IMemMap.insert (l.getD i []) key v)).map wrSum).sum ≤
      (l.map wrSum).sum + 1 := by
  by_cases h : i < l.length
  · have h1 := mapSum_set wrSum ([] : IMemMap) l i (IMemMap.insert (l.getD i []) key v) h
    have h2 := @sum_insert_le (l.getD i []) key v
      (fun e => e.2.warmup + e.2.runlength)
    simp only [] at h2
    simp only [wrSum] at h1
    omega
  · rw [List.set_eq_of_length_le (Nat.le_of_not_lt h)]
    omega

theorem wrSum_set_update (l : List IMemMap) (i key : Nat) (d d' : IMemData)
    (hfind : IMemMap.find? (l.getD i []) key = some d)
    (hd : d'.warmup + d'.runlength ≤ d.warmup + d.runlength + 1) :
    ((l.set i (IMemMap.update (l.getD i []) key (fun _ => d'))).map wrSum).sum ≤
      (l.map wrSum).sum + 1 := by
  by_cases h : i < l.length
  · have h1 := mapSum_set wrSum ([] : IMemMap) l i
      (IMemMap.update (l.getD i []) key (fun _ => d')) h
    have h2 := @IMemMap.sum_update (l.getD i []) key d d'
      (fun e => e.2.warmup + e.2.runlength) hfind
    simp only [] at h2
    simp only [wrSum] at h1
    omega
  · rw [List.set_eq_of_length_le (Nat.le_of_not_lt h)]
    omega

theorem java_fallback_sumWR (config : STFImemConfig) (s : IMemState) (inst : STFInst) :
    (JavaIMem.fallback config s inst).1.sumWR ≤ s.sumWR + 1 := by
  rcases hsearch : javaSearch s.imem_mapvec inst.pc inst.opcode 0 none with ⟨f, itt⟩
  cases f with
  | some i =>
    simp only [JavaIMem.fallback, hsearch]
    rcases hv : IMemMap.find? (s.imem_mapvec.getD i []) inst.pc with _ | d'
    · simp
    · simp only [IMemState.sumWR]
      exact wrSum_set_update _ _ _ d' _ hv (matchIncrements_wr config s d')
  | none =>
    cases itt with
    | none =>
      simp only [JavaIMem.fallback, hsearch, IMemState.sumWR, IMemMap.insert,
        List.map_cons, List.sum_cons]
      have h1 := IMemData.create_wr inst.isOpcode16 inst.opcode 0
        (s.inst_count < config.warmup_count) false false 0
      simp only [wrSum, List.map_cons, List.map_nil, List.sum_cons, List.sum_nil]
      omega
    | some j =>
      simp only [JavaIMem.fallback, hsearch, IMemState.sumWR]
      exact wrSum_set_insert _ _ _ _ (IMemData.create_wr ..)

/-- **C6.** For every event handed to `count_impl` — in both the `IMem` and
`JavaIMem` variants, on the entry-creation path as well as the entry-update
path — at most one of the warm-up counter increment and the run-length
counter increment fires: the total warm-up plus run-length mass over all
footprint tables grows by at most one per event. -/
theorem c6_warmup_runlength_mutually_exclusive (config : STFImemConfig)
    (s : IMemState) (inst : STFInst) :
    (IMem.count_impl config s inst).1.sumWR ≤ s.sumWR + 1 ∧
    (JavaIMem.count_impl config s inst).1.sumWR ≤ s.sumWR + 1 := by
  constructor
  · rcases hfind : IMemMap.find? (s.imem_mapvec.getD s.itv []) inst.pc with _ | d
    · simp only [IMem.count_impl, IMemState.active_def, hfind]
      simp only [IMemState.sumWR]
      split_ifs <;>
        exact wrSum_set_insert _ _ _ _ (IMemData.create_wr ..)
    · simp only [IMem.count_impl, IMemState.active_def, hfind]
      by_cases hop : d.opcode = inst.opcode
      · rw [if_pos hop]
        simp only [IMemState.sumWR]
        refine wrSum_set_update _ _ _ d _ hfind ?_
        have h1 := matchIncrements_wr config s d
        split_ifs <;> simpa using h1
      · rw [if_neg hop]
        simp
  · rcases hfind : IMemMap.find? (s.imem_mapvec.getD s.itv []) inst.pc with _ | d
    · simp only [JavaIMem.count_impl, IMemState.active_def, hfind]
      exact java_fallback_sumWR config s inst
    · simp only [JavaIMem.count_impl, IMemState.active_def, hfind]
      by_cases hop : d.opcode = inst.opcode
      · rw [if_pos hop]
        simp only [IMemState.sumWR]
        exact wrSum_set_update _ _ _ d _ hfind (matchIncrements_wr config s d)
      · rw [if_neg hop]
        exact java_fallback_sumWR config s inst

/-! ## Claim C7: fixed-capacity circular history buffers -/

theorem pushStrides_idx_len :
    ∀ (addrs : List Nat) (d : IMemData), d.recent_strides_idx < 50 →
      (pushStrides d addrs).recent_strides.length = d.recent_strides.length ∧
      (pushStrides d addrs).recent_strides_idx =
        (d.recent_strides_idx + addrs.length) % 50 := by
  intro addrs
  induction addrs with
  | nil =>
    intro d h
    simp [pushStrides, Nat.mod_eq_of_lt h]
  | cons a rest ih =>
    intro d h
    have hidx : (d.nextStride a).recent_strides_idx = (d.recent_strides_idx + 1) % 50 := by
      simp only [IMemData.nextStride, MAX_LHIST]
      split_ifs <;> omega
    have hlen : (d.nextStride a).recent_strides.length = d.recent_strides.length := by
      simp [IMemData.nextStride]
    have h2 : (d.nextStride a).recent_strides_idx < 50 := by
      rw [hidx]; exact Nat.mod_lt _ (by norm_num)
    have hrest := ih (d.nextStride a) h2
    have hps : pushStrides d (a :: rest) = pushStrides (d.nextStride a) rest := rfl
    rw [hps]
    refine ⟨by rw [hrest.1, hlen], ?_⟩
    rw [hrest.2, hidx]
    simp only [List.length_cons]
    omega

theorem pushBranches_idx_len :
    ∀ (bs : List Bool) (d : IMemData), d.branch_lhr_idx < 50 →
      (pushBranches d bs).branch_lhr.length = d.branch_lhr.length ∧
      (pushBranches d bs).branch_lhr_idx = (d.branch_lhr_idx + bs.length) % 50 := by
  intro bs
  induction bs with
  | nil =>
    intro d h
    simp [pushBranches, Nat.mod_eq_of_lt h]
  | cons b rest ih =>
    intro d h
    have hidx : (d.nextBranchHistory b).branch_lhr_idx = (d.branch_lhr_idx + 1) % 50 := by
      simp only [IMemData.nextBranchHistory, MAX_LHIST]
      split_ifs <;> omega
    have hlen : (d.nextBranchHistory b).branch_lhr.length = d.branch_lhr.length := by
      simp [IMemData.nextBranchHistory]
    have h2 : (d.nextBranchHistory b).branch_lhr_idx < 50 := by
      rw [hidx]; exact Nat.mod_lt _ (by norm_num)
    have hrest := ih (d.nextBranchHistory b) h2
    have hps : pushBranches d (b :: rest) = pushBranches (d.nextBranchHistory b) rest := rfl
    rw [hps]
    refine ⟨by rw [hrest.1, hlen], ?_⟩
    rw [hrest.2, hidx]
    simp only [List.length_cons]
    omega

/-- The base entry of the 53-push capacity test: a load/store entry created
at address 100. -/
def testEntry : IMemData := IMemData.create false 19 0 false false false 100

/-- The 53 load/store addresses of the capacity test: partial sums of the 53
distinct strides 1, 2, ..., 53 on top of the base address 100. -/
def testAddrs53 : List Nat := (List.range 53).map (fun k => 100 + (k + 1) * (k + 2) / 2)

/-- **C7.** The stride buffer and the branch-history bitset hold exactly 50
slots (`MAX_LHIST_`), pushes through `nextStride` / `nextBranchHistory`
advance the write index mod 50 so that the (k+50)-th push of a sequence
lands on the slot written by the k-th push, and pushing the 53 distinct
strides 1..53 leaves the buffer holding exactly the last 50 of them in
circular order starting at the write index. -/
theorem c7_circular_history_capacity :
    (∀ (a : Bool) (o p : Nat) (w br t : Bool) (ad : Nat),
       (IMemData.create a o p w br t ad).recent_strides.length = 50 ∧
       (IMemData.create a o p w br t ad).branch_lhr.length = 50) ∧
    (∀ (d : IMemData) (addrs : List Nat), d.recent_strides_idx < 50 →
       (pushStrides d addrs).recent_strides.length = d.recent_strides.length ∧
       (pushStrides d addrs).recent_strides_idx =
         (d.recent_strides_idx + addrs.length) % 50) ∧
    (∀ (d : IMemData) (bs : List Bool), d.branch_lhr_idx < 50 →
       (pushBranches d bs).branch_lhr.length = d.branch_lhr.length ∧
       (pushBranches d bs).branch_lhr_idx = (d.branch_lhr_idx + bs.length) % 50) ∧
    (∀ (d : IMemData) (addrs : List Nat) (k : Nat), d.recent_strides_idx < 50 →
       k + 50 ≤ addrs.length →
       (pushStrides d (addrs.take (k + 50))).recent_strides_idx =
         (pushStrides d (addrs.take k)).recent_strides_idx) ∧
    ((pushStrides testEntry testAddrs53).recent_strides_idx = 3 ∧
     (pushStrides testEntry testAddrs53).recent_strides.drop 3 ++
       (pushStrides testEntry testAddrs53).recent_strides.take 3 =
       (List.range 50).map (fun j => ((j : Int) + 4)) ∧
     ((List.range 53).map (fun k => ((k : Int) + 1))).Nodup) := by
  refine ⟨?_, pushStrides_idx_len |> fun h d a => h a d, ?_, ?_, ?_⟩
  · intro a o p w br t ad
    exact ⟨IMemData.create_strides_length a o p w br t ad,
           IMemData.create_lhr_length a o p w br t ad⟩
  · intro d bs h
    exact pushBranches_idx_len bs d h
  · intro d addrs k h hk
    have h1 := (pushStrides_idx_len (addrs.take (k + 50)) d h).2
    have h2 := (pushStrides_idx_len (addrs.take k) d h).2
    rw [h1, h2]
    rw [List.length_take, List.length_take]
    have : min (k + 50) addrs.length = k + 50 := by omega
    have hk2 : min k addrs.length = k := by omega
    rw [this, hk2]
    omega
  · refine ⟨by decide, by decide, by decide⟩

/-- Concrete instantiation of `c7_circular_history_capacity`: the index/
length formula evaluated on the 53-push test data. -/
theorem c7_circular_history_capacity_witness :
    testEntry.recent_strides_idx < 50 ∧
    ((pushStrides testEntry testAddrs53).recent_strides.length =
       testEntry.recent_strides.length ∧
     (pushStrides testEntry testAddrs53).recent_strides_idx =
       (testEntry.recent_strides_idx + testAddrs53.length) % 50) :=
  ⟨by decide, c7_circular_history_capacity.2.1 testEntry testAddrs53 (by decide)⟩

/-! ## Claim C9: morph identifier radix -/

theorem digitVal?_digit {d base : Nat} (hd : d < 10) (hb : 10 ≤ base) :
    digitVal? base (48 + d) = some d := by
  have h1 : (48 ≤ 48 + d ∧ 48 + d ≤ 57) := by omega
  have h2 : 48 + d - 48 = d := by omega
  simp only [digitVal?, if_pos h1, h2]
  rw [if_pos (by omega)]

theorem isSpaceChar_digit (d : Nat) : isSpaceChar (48 + d) = false := by
  simp only [isSpaceChar]
  simp only [decide_eq_false_iff_not]
  omega

theorem parseDigitsLoop_digits {base : Nat} (hb : 10 ≤ base) :
    ∀ (ds : List Nat) (acc : Nat), (∀ d ∈ ds, d < 10) →
      parseDigitsLoop base (renderDec ds) acc =
        ds.foldl (fun a d => a * base + d) acc := by
  intro ds
  induction ds with
  | nil => intro acc _; simp [parseDigitsLoop, renderDec]
  | cons d rest ih =>
    intro acc h
    have hd : d < 10 := h d (by simp)
    simp only [renderDec, List.map_cons, parseDigitsLoop,
      digitVal?_digit hd hb, List.foldl_cons]
    exact ih (acc * base + d) (fun x hx => h x (by simp [hx]))

theorem stripHexPrefix_digits (ds : List Nat) (h : ∀ d ∈ ds, d < 10) :
    stripHexPrefix (renderDec ds) = renderDec ds := by
  rcases ds with _ | ⟨d0, _ | ⟨d1, _ | ⟨d2, rest⟩⟩⟩
  · rfl
  · rfl
  · rfl
  · have hd1 : d1 < 10 := h d1 (by simp)
    simp only [renderDec, List.map_cons, stripHexPrefix]
    rw [if_neg ?_]
    rintro ⟨-, h2, -⟩
    rcases h2 with h2 | h2 <;> omega

theorem stoull_digits {base : Nat} (hb : 10 ≤ base) (d0 : Nat) (rest : List Nat)
    (hdig : ∀ d ∈ d0 :: rest, d < 10)
    (hv : ofDigits base (d0 :: rest) < 2 ^ 64) :
    stoull base (renderDec (d0 :: rest)) = some (ofDigits base (d0 :: rest)) := by
  have hd0 : d0 < 10 := hdig d0 (by simp)
  have hskip : skipWs (renderDec (d0 :: rest)) = renderDec (d0 :: rest) := by
    simp only [renderDec, List.map_cons, skipWs, isSpaceChar_digit]
    simp
  have hsign : readSign (renderDec (d0 :: rest)) = (false, renderDec (d0 :: rest)) := by
    simp only [renderDec, List.map_cons, readSign]
    rw [if_neg (by omega), if_neg (by omega)]
  have hparse : parseDigitsLoop base (renderDec rest) d0 =
      ofDigits base (d0 :: rest) := by
    rw [parseDigitsLoop_digits hb rest d0 (fun x hx => hdig x (by simp [hx]))]
    simp [ofDigits]
  have hcore : stoullCore base false (renderDec (d0 :: rest)) =
      some (ofDigits base (d0 :: rest)) := by
    have hrd : renderDec (d0 :: rest) = (48 + d0) :: renderDec rest := by
      simp [renderDec]
    rw [hrd]
    simp only [stoullCore, digitVal?_digit hd0 hb, hparse]
    rw [if_neg (by omega)]
    simp
  have hs3 : (if base = 16 then stripHexPrefix (renderDec (d0 :: rest))
      else renderDec (d0 :: rest)) = renderDec (d0 :: rest) := by
    by_cases hb16 : base = 16
    · rw [if_pos hb16, stripHexPrefix_digits _ hdig]
    · rw [if_neg hb16]
  simp only [stoull, hskip, hsign, hs3]
  exact hcore

/-- **C9.** `convertMorphId_` parses a morph-target identifier as a decimal
numeral when the morph is keyed by global sequence index (`STFID`) and as a
hexadecimal numeral when it is keyed by `PC`: on any nonempty string of
decimal digit characters the two kinds yield the base-10 and base-16 values
respectively. -/
theorem c9_morph_id_radix (ds : List Nat) (hne : ds ≠ [])
    (hdig : ∀ d ∈ ds, d < 10)
    (h10 : ofDigits 10 ds < 2 ^ 64) (h16 : ofDigits 16 ds < 2 ^ 64) :
    convertMorphId MorphType.STFID (renderDec ds) = some (ofDigits 10 ds) ∧
    convertMorphId MorphType.PC (renderDec ds) = some (ofDigits 16 ds) := by
  obtain ⟨d0, rest, rfl⟩ := List.exists_cons_of_ne_nil hne
  exact ⟨stoull_digits (by omega) d0 rest hdig h10,
         stoull_digits (by omega) d0 rest hdig h16⟩

/-! ## Helper lemmas: list indexing -/

theorem getD_set_self {α : Type} (l : List α) (i : Nat) (a dflt : α)
    (h : i < l.length) : (l.set i a).getD i dflt = a := by
  simp [List.getD, List.getElem?_set_self', List.getElem?_eq_getElem, h]

theorem getD_set_ne {α : Type} (l : List α) (i j : Nat) (a dflt : α)
    (h : i ≠ j) : (l.set i a).getD j dflt = l.getD j dflt := by
  simp [List.getD, List.getElem?_set_ne h]

theorem getD_of_mem {α : Type} {l : List α} {m : α} (dflt : α) (hm : m ∈ l) :
    ∃ k, k < l.length ∧ l.getD k dflt = m := by
  obtain ⟨i, hi, hget⟩ := List.getElem_of_mem hm
  exact ⟨i, hi, by simp [List.getD, List.getElem?_eq_getElem, hi, hget]⟩

theorem foldl_last {α : Type} : ∀ (l : List α) (x : α),
    l.foldl (fun _ a => a) x = l.getLastD x := by
  intro l
  induction l with
  | nil => intro x; rfl
  | cons a rest ih =>
    intro x
    rw [List.foldl_cons, ih a, List.getLastD_cons]

/-! ## The three outcomes of the Java fallback scan -/

theorem java_fallback_found (config : STFImemConfig) (s : IMemState)
    (inst : STFInst) (i : Nat) (itt : Option Nat)
    (hsearch : javaSearch s.imem_mapvec inst.pc inst.opcode 0 none = (some i, itt)) :
    ∃ d', i < s.imem_mapvec.length ∧
      IMemMap.find? (s.imem_mapvec.getD i []) inst.pc = some d' ∧
      d'.opcode = inst.opcode ∧
      JavaIMem.fallback config s inst =
        ({ s with
            imem_mapvec := s.imem_mapvec.set i
              (IMemMap.update (s.imem_mapvec.getD i []) inst.pc
                (fun _ => (matchIncrements config s d').1)),
            itv := i,
            max_count := (matchIncrements config s d').2.1,
            max_warmup := (matchIncrements config s d').2.2.1,
            max_run_length := (matchIncrements config s d').2.2.2 }, 0) := by
  obtain ⟨k, hk, hik, d', hd', hop⟩ :=
    javaSearch_found s.imem_mapvec inst.pc inst.opcode 0 none i (by rw [hsearch])
  have hik' : i = k := by omega
  subst hik'
  refine ⟨d', hk, hd', hop, ?_⟩
  simp only [JavaIMem.fallback, hsearch, hd']

theorem java_fallback_newmap (config : STFImemConfig) (s : IMemState)
    (inst : STFInst)
    (hsearch : javaSearch s.imem_mapvec inst.pc inst.opcode 0 none = (none, none)) :
    (∀ m ∈ s.imem_mapvec, (IMemMap.find? m inst.pc).isSome) ∧
    JavaIMem.fallback config s inst =
      ({ s with
          imem_mapvec :=
            [(inst.pc, IMemData.create inst.isOpcode16 inst.opcode 0
              (s.inst_count < config.warmup_count) false false 0)] :: s.imem_mapvec,
          itv := 0 }, 0) := by
  obtain ⟨-, hall⟩ := javaSearch_nn s.imem_mapvec inst.pc inst.opcode 0 none hsearch
  constructor
  · intro m hm
    obtain ⟨k, hk, hget⟩ := getD_of_mem ([] : IMemMap) hm
    have := hall k hk
    rwa [hget] at this
  · simp only [JavaIMem.fallback, hsearch]
    rfl

theorem java_fallback_existing (config : STFImemConfig) (s : IMemState)
    (inst : STFInst) (j : Nat)
    (hsearch : javaSearch s.imem_mapvec inst.pc inst.opcode 0 none = (none, some j)) :
    j < s.imem_mapvec.length ∧
    IMemMap.find? (s.imem_mapvec.getD j []) inst.pc = none ∧
    JavaIMem.fallback config s inst =
      (let tgt := if (IMemMap.find? s.active inst.pc).isSome then j else s.itv
       ({ s with
           imem_mapvec := s.imem_mapvec.set tgt
             (IMemMap.insert (s.imem_mapvec.getD tgt []) inst.pc
               (IMemData.create inst.isOpcode16 inst.opcode 0
                 (s.inst_count < config.warmup_count) false false 0)),
           itv := tgt }, 0)) := by
  have hitt := javaSearch_itt s.imem_mapvec inst.pc inst.opcode 0 none j (by rw [hsearch])
  rcases hitt with h | ⟨k, hk, hjk, hfind⟩
  · simp at h
  · have hjk' : j = k := by omega
    subst hjk'
    refine ⟨hk, hfind, ?_⟩
    simp only [JavaIMem.fallback, hsearch]

/-- **C3.** In the Java-trace profiler, when the active table holds the
event's PC with a different opcode, the fallback scan over all tables
decides the outcome: a table with a PC+opcode match becomes the new active
table and its entry is updated along the normal match path; if every table
holds the PC (necessarily with a different opcode), a brand-new table is
inserted at the front, made active, and the PC is recorded there; and if
some table lacks the PC, the last such table is the remembered fallback
insertion point — it becomes active and receives the new entry. -/
theorem c3_java_mismatch_disambiguation (config : STFImemConfig)
    (s : IMemState) (inst : STFInst) (d : IMemData)
    (hfind : IMemMap.find? s.active inst.pc = some d)
    (hmm : d.opcode ≠ inst.opcode) :
    JavaIMem.count_impl config s inst = JavaIMem.fallback config s inst ∧
    (∀ i itt, javaSearch s.imem_mapvec inst.pc inst.opcode 0 none = (some i, itt) →
       ∃ d', i < s.imem_mapvec.length ∧
         IMemMap.find? (s.imem_mapvec.getD i []) inst.pc = some d' ∧
         d'.opcode = inst.opcode ∧
         (JavaIMem.count_impl config s inst).1.itv = i ∧
         (JavaIMem.count_impl config s inst).1.imem_mapvec =
           s.imem_mapvec.set i
             (IMemMap.update (s.imem_mapvec.getD i []) inst.pc
               (fun _ => (matchIncrements config s d').1))) ∧
    (javaSearch s.imem_mapvec inst.pc inst.opcode 0 none = (none, none) →
       (∀ m ∈ s.imem_mapvec, (IMemMap.find? m inst.pc).isSome) ∧
       (∀ m ∈ s.imem_mapvec, ∀ d0, IMemMap.find? m inst.pc = some d0 →
          d0.opcode ≠ inst.opcode) ∧
       (JavaIMem.count_impl config s inst).1.itv = 0 ∧
       (JavaIMem.count_impl config s inst).1.imem_mapvec =
         [(inst.pc, IMemData.create inst.isOpcode16 inst.opcode 0
           (s.inst_count < config.warmup_count) false false 0)] :: s.imem_mapvec) ∧
    (∀ j, javaSearch s.imem_mapvec inst.pc inst.opcode 0 none = (none, some j) →
       j < s.imem_mapvec.length ∧
       IMemMap.find? (s.imem_mapvec.getD j []) inst.pc = none ∧
       (JavaIMem.count_impl config s inst).1.itv = j ∧
       (JavaIMem.count_impl config s inst).1.imem_mapvec =
         s.imem_mapvec.set j
           (IMemMap.insert (s.imem_mapvec.getD j []) inst.pc
             (IMemData.create inst.isOpcode16 inst.opcode 0
               (s.inst_count < config.warmup_count) false false 0))) := by
  have hci : JavaIMem.count_impl config s inst = JavaIMem.fallback config s inst := by
    simp only [JavaIMem.count_impl, hfind, if_neg hmm]
  refine ⟨hci, ?_, ?_, ?_⟩
  · intro i itt hsearch
    obtain ⟨d', hi, hd', hop, heq⟩ := java_fallback_found config s inst i itt hsearch
    exact ⟨d', hi, hd', hop, by rw [hci, heq], by rw [hci, heq]⟩
  · intro hsearch
    obtain ⟨hall, heq⟩ := java_fallback_newmap config s inst hsearch
    refine ⟨hall, ?_, by rw [hci, heq], by rw [hci, heq]⟩
    intro m hm d0 hd0
    obtain ⟨k, hk, hget⟩ := getD_of_mem ([] : IMemMap) hm
    have hnone := javaSearch_none s.imem_mapvec inst.pc inst.opcode 0 none
      (by rw [hsearch]) k hk d0 (by rw [hget]; exact hd0)
    exact hnone
  · intro j hsearch
    obtain ⟨hj, hnone, heq⟩ := java_fallback_existing config s inst j hsearch
    have htgt : (if (IMemMap.find? s.active inst.pc).isSome then j else s.itv) = j := by
      rw [hfind]
      simp
    rw [htgt] at heq
    exact ⟨hj, hnone, by rw [hci, heq], by rw [hci, heq]⟩

/-- Concrete instantiation of `c3_java_mismatch_disambiguation`: a
single-table state whose entry at PC 16 holds opcode 1, hit by an event at
PC 16 with opcode 2. -/
theorem c3_java_mismatch_disambiguation_witness :
    (IMemMap.find?
        ({ imem_mapvec := [[(16, IMemData.create false 1 0 false false false 0)]],
           itv := 0, inst_count := 1 } : IMemState).active 16 =
      some (IMemData.create false 1 0 false false false 0)) ∧
    (JavaIMem.count_impl {}
        { imem_mapvec := [[(16, IMemData.create false 1 0 false false false 0)]],
          itv := 0, inst_count := 1 }
        { pc := 16, opcode := 2 } =
      JavaIMem.fallback {}
        { imem_mapvec := [[(16, IMemData.create false 1 0 false false false 0)]],
          itv := 0, inst_count := 1 }
        { pc := 16, opcode := 2 }) :=
  ⟨by decide,
   (c3_java_mismatch_disambiguation {}
      { imem_mapvec := [[(16, IMemData.create false 1 0 false false false 0)]],
        itv := 0, inst_count := 1 }
      { pc := 16, opcode := 2 }
      (IMemData.create false 1 0 false false false 0)
      (by decide) (by decide)).1⟩

/-! ## Claim C2: opcode mismatch handling -/

/-- **C2 (amended).** An admitted event that hits an existing entry with a
different opcode never mutates that entry: the `IMem` variant leaves the
whole state untouched and emits exactly one warning, while the `JavaIMem`
variant emits *no* warning (its active table, mismatching entry included,
survives unchanged at some position of the table vector). -/
theorem c2_mismatch_warning (config : STFImemConfig) (s : IMemState)
    (inst : STFInst) (d : IMemData)
    (hfind : IMemMap.find? s.active inst.pc = some d)
    (hmm : d.opcode ≠ inst.opcode) :
    IMem.count_impl config s inst = (s, 1) ∧
    (JavaIMem.count_impl config s inst).2 = 0 ∧
    (∃ jj, (JavaIMem.count_impl config s inst).1.imem_mapvec.getD jj [] = s.active) := by
  have himem : IMem.count_impl config s inst = (s, 1) := by
    simp only [IMem.count_impl, hfind, if_neg hmm]
  have hci : JavaIMem.count_impl config s inst = JavaIMem.fallback config s inst := by
    simp only [JavaIMem.count_impl, hfind, if_neg hmm]
  rw [hci]
  rcases hsearch : javaSearch s.imem_mapvec inst.pc inst.opcode 0 none with ⟨f, itt⟩
  cases f with
  | some i =>
    obtain ⟨d', hi, hd', hop, heq⟩ := java_fallback_found config s inst i itt hsearch
    have hne : i ≠ s.itv := by
      intro h
      rw [h] at hd'
      rw [IMemState.active_def] at hfind
      rw [hfind] at hd'
      injection hd' with hd'
      subst hd'
      exact hmm hop
    refine ⟨himem, by rw [heq], s.itv, ?_⟩
    rw [heq]
    simpa using getD_set_ne s.imem_mapvec i s.itv _ ([] : IMemMap) hne
  | none =>
    cases itt with
    | none =>
      obtain ⟨-, heq⟩ := java_fallback_newmap config s inst hsearch
      refine ⟨himem, by rw [heq], s.itv + 1, ?_⟩
      rw [heq]
      simp [List.getD_cons_succ]
    | some j =>
      obtain ⟨hj, hnone, heq⟩ := java_fallback_existing config s inst j hsearch
      have htgt : (if (IMemMap.find? s.active inst.pc).isSome then j else s.itv) = j := by
        rw [hfind]; simp
      rw [htgt] at heq
      have hne : j ≠ s.itv := by
        intro h
        rw [h] at hnone
        rw [IMemState.active_def] at hfind
        rw [hfind] at hnone
        cases hnone
      refine ⟨himem, by rw [heq], s.itv, ?_⟩
      rw [heq]
      simpa using getD_set_ne s.imem_mapvec j s.itv _ ([] : IMemMap) hne

/-- Concrete instantiation of `c2_mismatch_warning` at the same
single-table, mismatching-opcode input used for C3. -/
theorem c2_mismatch_warning_witness :
    (IMemMap.find?
        ({ imem_mapvec := [[(16, IMemData.create false 1 0 false false false 0)]],
           itv := 0, inst_count := 1 } : IMemState).active 16 =
      some (IMemData.create false 1 0 false false false 0)) ∧
    IMem.count_impl {}
        { imem_mapvec := [[(16, IMemData.create false 1 0 false false false 0)]],
          itv := 0, inst_count := 1 }
        { pc := 16, opcode := 2 } =
      ({ imem_mapvec := [[(16, IMemData.create false 1 0 false false false 0)]],
         itv := 0, inst_count := 1 }, 1) :=
  ⟨by decide,
   (c2_mismatch_warning {}
      { imem_mapvec := [[(16, IMemData.create false 1 0 false false false 0)]],
        itv := 0, inst_count := 1 }
      { pc := 16, opcode := 2 }
      (IMemData.create false 1 0 false false false 0)
      (by decide) (by decide)).1⟩

/-- Counterexample to C2 as frozen: the claim demands exactly one warning
per mismatching event *in both variants*, but on a concrete mismatching
event (entry at PC 16 holds opcode 1, event carries opcode 2) the
`JavaIMem` variant emits zero warnings. -/
theorem c2_counterexample_java_no_warning :
    (IMemMap.find?
        ({ imem_mapvec := [[(16, IMemData.create false 1 0 false false false 0)]],
           itv := 0, inst_count := 1 } : IMemState).active 16 =
      some (IMemData.create false 1 0 false false false 0)) ∧
    (IMemData.create false 1 0 false false false 0).opcode ≠
      ({ pc := 16, opcode := 2 } : STFInst).opcode ∧
    (JavaIMem.count_impl {}
        { imem_mapvec := [[(16, IMemData.create false 1 0 false false false 0)]],
          itv := 0, inst_count := 1 }
        { pc := 16, opcode := 2 }).2 = 0 ∧
    ((JavaIMem.count_impl {}
        { imem_mapvec := [[(16, IMemData.create false 1 0 false false false 0)]],
          itv := 0, inst_count := 1 }
        { pc := 16, opcode := 2 }).2 ≠ 1) := by
  refine ⟨by decide, by decide, by decide, by decide⟩

/-! ## Claim C8: first sighting of a load/store -/

/-- Modelled from the spec: the "*first* address observed among its memory
accesses that step" — the head of the load's read list (store's write
list).  Used only to exhibit the divergence from the code, which keeps the
last such address. -/
def firstAddrSpec (inst : STFInst) : Nat :=
  if inst.isLoad then inst.memoryReads.headD 0
  else if inst.isStore then inst.memoryWrites.headD 0
  else 0

/-- **C8 (amended).** When `count_impl` first sees a PC and the instruction
is a load or store, the created entry records as its last-seen address the
*last* address observed among the instruction's memory accesses for that
step (reads for a load, else writes for a store), and is classified as
load/store exactly when that captured address is nonzero. -/
theorem c8_first_sighting_loadstore (config : STFImemConfig) (s : IMemState)
    (inst : STFInst)
    (habs : IMemMap.find? s.active inst.pc = none)
    (hls : inst.isLoad = true ∨ inst.isStore = true)
    (hlen : s.itv < s.imem_mapvec.length) :
    ∃ e, IMemMap.find? (IMem.count_impl config s inst).1.active inst.pc = some e ∧
      e.count = 1 ∧
      e.last_address = capturedAddr inst ∧
      (e.is_loadstore = true ↔ capturedAddr inst ≠ 0) ∧
      (inst.isLoad = true → capturedAddr inst = inst.memoryReads.getLastD 0) ∧
      (inst.isLoad = false → capturedAddr inst = inst.memoryWrites.getLastD 0) := by
  have hlsb : (inst.isLoad || inst.isStore) = true := by
    rcases hls with h | h <;> simp [h]
  have hstep : (IMem.count_impl config s inst).1 =
      { s with imem_mapvec :=
          (s.imem_mapvec.set s.itv
            (IMemMap.insert s.active inst.pc
              (IMemData.create inst.isOpcode16 inst.opcode 0
                (s.inst_count < config.warmup_count) false false (capturedAddr inst)))) } := by
    simp only [IMem.count_impl, habs]
    rw [if_pos hlsb]
  refine ⟨IMemData.create inst.isOpcode16 inst.opcode 0
      (s.inst_count < config.warmup_count) false false (capturedAddr inst),
      ?_, IMemData.create_count .., IMemData.create_last_address .., ?_, ?_, ?_⟩
  · rw [hstep]
    simp only [IMemState.active_def]
    rw [getD_set_self _ _ _ _ hlen]
    rw [IMemState.active_def] at habs
    exact IMemMap.find?_insert_self habs
  · rw [IMemData.create_is_loadstore]
    simp
  · intro h
    simp [capturedAddr, h, foldl_last]
  · intro h
    rcases hls with h' | h'
    · rw [h] at h'; cases h'
    · simp [capturedAddr, h, h', foldl_last]

/-- Concrete instantiation of `c8_first_sighting_loadstore`: a load at a
fresh PC whose memory-read list is `[4, 8]`. -/
theorem c8_first_sighting_loadstore_witness :
    IMemMap.find? (initState.active) 32 = none ∧
    (∃ e, IMemMap.find?
        (IMem.count_impl {} initState
          { pc := 32, opcode := 5, isLoad := true, memoryReads := [4, 8] }).1.active
        32 = some e ∧
      e.count = 1 ∧
      e.last_address =
        capturedAddr { pc := 32, opcode := 5, isLoad := true, memoryReads := [4, 8] } ∧
      (e.is_loadstore = true ↔
        capturedAddr { pc := 32, opcode := 5, isLoad := true, memoryReads := [4, 8] } ≠ 0) ∧
      (({ pc := 32, opcode := 5, isLoad := true, memoryReads := [4, 8] } : STFInst).isLoad
          = true →
        capturedAddr { pc := 32, opcode := 5, isLoad := true, memoryReads := [4, 8] } =
          ([4, 8] : List Nat).getLastD 0) ∧
      (({ pc := 32, opcode := 5, isLoad := true, memoryReads := [4, 8] } : STFInst).isLoad
          = false →
        capturedAddr { pc := 32, opcode := 5, isLoad := true, memoryReads := [4, 8] } =
          ([] : List Nat).getLastD 0)) :=
  ⟨by decide,
   c8_first_sighting_loadstore {} initState
     { pc := 32, opcode := 5, isLoad := true, memoryReads := [4, 8] }
     (by decide) (Or.inl (by decide)) (by decide)⟩

/-- Counterexample to C8 as frozen: on a load with memory reads `[4, 8]`
first seen at PC 32, the created entry's last-seen address is 8 — the last
address of the access list — while the claim demands the first observed
address, 4. -/
theorem c8_counterexample_last_address :
    (IMemMap.find?
        (IMem.count_impl {} initState
          { pc := 32, opcode := 5, isLoad := true, memoryReads := [4, 8] }).1.active
        32).map IMemData.last_address = some 8 ∧
    firstAddrSpec { pc := 32, opcode := 5, isLoad := true, memoryReads := [4, 8] } = 4 ∧
    (8 : Nat) ≠ 4 := by
  refine ⟨by decide, by decide, by decide⟩

/-! ## Step-shape lemmas for `IMem.count_impl` -/

/-- The entry `IMem::count_impl` creates for a previously unseen PC
(the three `createIMem_` call sites folded into one expression). -/
def imemNewData (config : STFImemConfig) (s : IMemState) (inst : STFInst) : IMemData :=
  if (inst.isLoad || inst.isStore) = true then
    IMemData.create inst.isOpcode16 inst.opcode 0 (s.inst_count < config.warmup_count)
      false false (capturedAddr inst)
  else if inst.isTakenBranch = true then
    IMemData.create inst.isOpcode16 inst.opcode 0 (s.inst_count < config.warmup_count)
      inst.isTakenBranch inst.isTakenBranch 0
  else
    IMemData.create inst.isOpcode16 inst.opcode 0 (s.inst_count < config.warmup_count)
      false false 0

/-- The entry `IMem::count_impl` leaves at a matched PC. -/
def imemUpdatedData (config : STFImemConfig) (s : IMemState) (inst : STFInst)
    (d : IMemData) : IMemData :=
  if (inst.isLoad || inst.isStore) = true then
    (matchIncrements config s d).1.nextStride (capturedAddr inst)
  else if inst.isTakenBranch = true then
    (matchIncrements config s d).1.nextBranchHistory inst.isTakenBranch
  else
    (matchIncrements config s d).1

theorem IMem.count_impl_create (config : STFImemConfig) (s : IMemState)
    (inst : STFInst) (habs : IMemMap.find? s.active inst.pc = none) :
    IMem.count_impl config s inst =
      ({ s with imem_mapvec :=
          (s.imem_mapvec.set s.itv
            (IMemMap.insert s.active inst.pc (imemNewData config s inst))) }, 0) := by
  simp only [IMem.count_impl, habs, imemNewData]

theorem IMem.count_impl_match (config : STFImemConfig) (s : IMemState)
    (inst : STFInst) (d : IMemData)
    (hfind : IMemMap.find? s.active inst.pc = some d)
    (hop : d.opcode = inst.opcode) :
    IMem.count_impl config s inst =
      ({ s with
          imem_mapvec :=
            (s.imem_mapvec.set s.itv
              (IMemMap.update s.active inst.pc
                (fun _ => imemUpdatedData config s inst d))),
          max_count := (matchIncrements config s d).2.1,
          max_warmup := (matchIncrements config s d).2.2.1,
          max_run_length := (matchIncrements config s d).2.2.2 }, 0) := by
  simp only [IMem.count_impl, hfind, if_pos hop, imemUpdatedData]

theorem IMem.count_impl_mismatch (config : STFImemConfig) (s : IMemState)
    (inst : STFInst) (d : IMemData)
    (hfind : IMemMap.find? s.active inst.pc = some d)
    (hop : d.opcode ≠ inst.opcode) :
    IMem.count_impl config s inst = (s, 1) := by
  simp only [IMem.count_impl, hfind, if_neg hop]

theorem imem_step_itv_len (config : STFImemConfig) (s : IMemState) (inst : STFInst) :
    (IMem.count_impl config s inst).1.itv = s.itv ∧
    (IMem.count_impl config s inst).1.imem_mapvec.length = s.imem_mapvec.length ∧
    (IMem.count_impl config s inst).1.inst_count = s.inst_count := by
  rcases hfind : IMemMap.find? s.active inst.pc with _ | d
  · rw [IMem.count_impl_create config s inst hfind]
    simp
  · by_cases hop : d.opcode = inst.opcode
    · rw [IMem.count_impl_match config s inst d hfind hop]
      simp
    · rw [IMem.count_impl_mismatch config s inst d hfind hop]
      simp

/-! ## Claim C10: branch classification only via taken branches -/

/-- An entry carrying no branch classification and no branch history. -/
def branchFree (d : IMemData) : Prop :=
  d.is_branch = false ∧ d.branch_lhr = List.replicate MAX_LHIST false ∧
  d.branch_lhr_idx = 0

theorem imemNewData_branchfree (config : STFImemConfig) (s : IMemState)
    (inst : STFInst) (hnt : inst.isTakenBranch = false) :
    branchFree (imemNewData config s inst) := by
  simp only [imemNewData, branchFree]
  split_ifs with h1 h2
  · exact ⟨IMemData.create_is_branch .., (IMemData.create_not_branch ..).1,
      (IMemData.create_not_branch ..).2⟩
  · rw [hnt] at h2; cases h2
  · exact ⟨IMemData.create_is_branch .., (IMemData.create_not_branch ..).1,
      (IMemData.create_not_branch ..).2⟩

theorem imemUpdatedData_branch_frozen (config : STFImemConfig) (s : IMemState)
    (inst : STFInst) (d : IMemData) (hnt : inst.isTakenBranch = false) :
    (imemUpdatedData config s inst d).is_branch = d.is_branch ∧
    (imemUpdatedData config s inst d).branch_lhr = d.branch_lhr ∧
    (imemUpdatedData config s inst d).branch_lhr_idx = d.branch_lhr_idx := by
  obtain ⟨mb, ml, mi⟩ := matchIncrements_branchFields config s d
  simp only [imemUpdatedData]
  split_ifs with h1 h2
  · simp [mb, ml, mi]
  · rw [hnt] at h2; cases h2
  · exact ⟨mb, ml, mi⟩

theorem imem_step_branchfree (config : STFImemConfig) (s : IMemState)
    (inst : STFInst) (p : Nat)
    (hnt : inst.pc = p → inst.isTakenBranch = false)
    (hlen : s.itv < s.imem_mapvec.length)
    (hinv : ∀ d, IMemMap.find? s.active p = some d → branchFree d) :
    ∀ d', IMemMap.find? (IMem.count_impl config s inst).1.active p = some d' →
      branchFree d' := by
  rw [IMemState.active_def] at hinv
  intro d' hd'
  rcases hfind : IMemMap.find? (s.imem_mapvec.getD s.itv []) inst.pc with _ | d
  · rw [IMem.count_impl_create config s inst hfind] at hd'
    simp only [IMemState.active_def] at hd'
    rw [getD_set_self _ _ _ _ hlen] at hd'
    by_cases hpc : p = inst.pc
    · subst hpc
      rw [IMemMap.find?_insert_self hfind] at hd'
      injection hd' with hd'
      subst hd'
      exact imemNewData_branchfree config s inst (hnt rfl)
    · rw [IMemMap.find?_insert_ne hpc] at hd'
      exact hinv d' hd'
  · by_cases hop : d.opcode = inst.opcode
    · rw [IMem.count_impl_match config s inst d hfind hop] at hd'
      simp only [IMemState.active_def] at hd'
      rw [getD_set_self _ _ _ _ hlen] at hd'
      by_cases hpc : p = inst.pc
      · subst hpc
        rw [IMemMap.find?_update_self hfind] at hd'
        injection hd' with hd'
        subst hd'
        obtain ⟨hb, hl, hbi⟩ := hinv d hfind
        obtain ⟨mb, ml, mi⟩ := imemUpdatedData_branch_frozen config s inst d (hnt rfl)
        exact ⟨by rw [mb, hb], by rw [ml, hl], by rw [mi, hbi]⟩
      · rw [IMemMap.find?_update_ne hpc] at hd'
        exact hinv d' hd'
    · rw [IMem.count_impl_mismatch config s inst d hfind hop] at hd'
      exact hinv d' hd'

theorem imem_run_branchfree (config : STFImemConfig) (p : Nat) :
    ∀ (insts : List STFInst) (s : IMemState),
      (∀ inst ∈ insts, inst.pc = p → inst.isTakenBranch = false) →
      s.itv < s.imem_mapvec.length →
      (∀ d, IMemMap.find? s.active p = some d → branchFree d) →
      ∀ d, IMemMap.find?
          (processList IMem.count_impl config s insts).1.active p = some d →
        branchFree d := by
  intro insts
  induction insts with
  | nil =>
    intro s _ _ hinv
    simpa [processList] using hinv
  | cons inst rest ih =>
    intro s hall hlen hinv
    have hrest : ∀ i ∈ rest, i.pc = p → i.isTakenBranch = false :=
      fun i hi => hall i (by simp [hi])
    have hhead : inst.pc = p → inst.isTakenBranch = false :=
      hall inst (by simp)
    simp only [processList]
    split_ifs with h1 h2 h3 h4 h5
    · exact ih s hrest hlen hinv
    · exact ih s hrest hlen hinv
    · exact ih s hrest hlen hinv
    · exact ih s hrest hlen hinv
    · -- admitted and the cap is reached right after this event
      intro d hd
      obtain ⟨hitv, hmlen, -⟩ := imem_step_itv_len config s inst
      exact imem_step_branchfree config s inst p hhead hlen hinv d hd
    · -- admitted, keep processing
      intro d hd
      obtain ⟨hitv, hmlen, -⟩ := imem_step_itv_len config s inst
      refine ih { (IMem.count_impl config s inst).1 with
          inst_count := (IMem.count_impl config s inst).1.inst_count + 1 }
        hrest (by simp [hitv, hmlen]; omega) ?_ d hd
      intro d0 hd0
      exact imem_step_branchfree config s inst p hhead hlen hinv d0 hd0

/-- **C10.** In the non-Java profiler an instruction is classified as a
branch only through a taken occurrence: an event with the taken flag clear
never changes branch classification or branch history (neither on creation
nor on update), an event at a fresh PC creates a branch-free entry, a taken
branch pushes the set (taken) bit into the bitset, and over a whole run a PC
none of whose occurrences is a taken branch ends up with no branch mark and
an untouched all-zero branch history. -/
theorem c10_branch_classification_taken_only (config : STFImemConfig) :
    (∀ (s : IMemState) (inst : STFInst) (d : IMemData),
       inst.isTakenBranch = false →
       IMemMap.find? s.active inst.pc = some d →
       d.opcode = inst.opcode →
       s.itv < s.imem_mapvec.length →
       ∃ d', IMemMap.find? (IMem.count_impl config s inst).1.active inst.pc = some d' ∧
         d'.is_branch = d.is_branch ∧ d'.branch_lhr = d.branch_lhr ∧
         d'.branch_lhr_idx = d.branch_lhr_idx) ∧
    (∀ (s : IMemState) (inst : STFInst),
       inst.isTakenBranch = false →
       IMemMap.find? s.active inst.pc = none →
       s.itv < s.imem_mapvec.length →
       ∃ d', IMemMap.find? (IMem.count_impl config s inst).1.active inst.pc = some d' ∧
         branchFree d') ∧
    (∀ (s : IMemState) (inst : STFInst) (d : IMemData),
       inst.isTakenBranch = true →
       inst.isLoad = false → inst.isStore = false →
       IMemMap.find? s.active inst.pc = some d →
       d.opcode = inst.opcode →
       s.itv < s.imem_mapvec.length →
       ∃ d', IMemMap.find? (IMem.count_impl config s inst).1.active inst.pc = some d' ∧
         d'.is_branch = true ∧
         d'.branch_lhr = d.branch_lhr.set d.branch_lhr_idx true) ∧
    (∀ (insts : List STFInst) (p : Nat),
       (∀ inst ∈ insts, inst.pc = p → inst.isTakenBranch = false) →
       ∀ d, IMemMap.find? (IMem.processTrace config insts).1.active p = some d →
         branchFree d) := by
  refine ⟨?_, ?_, ?_, ?_⟩
  · intro s inst d hnt hfind hop hlen
    rw [IMem.count_impl_match config s inst d hfind hop]
    simp only [IMemState.active_def]
    rw [getD_set_self _ _ _ _ hlen]
    obtain ⟨mb, ml, mi⟩ := imemUpdatedData_branch_frozen config s inst d hnt
    exact ⟨imemUpdatedData config s inst d,
      IMemMap.find?_update_self hfind, mb, ml, mi⟩
  · intro s inst hnt habs hlen
    rw [IMem.count_impl_create config s inst habs]
    simp only [IMemState.active_def]
    rw [getD_set_self _ _ _ _ hlen]
    exact ⟨imemNewData config s inst, IMemMap.find?_insert_self habs,
      imemNewData_branchfree config s inst hnt⟩
  · intro s inst d ht hld hst hfind hop hlen
    rw [IMem.count_impl_match config s inst d hfind hop]
    simp only [IMemState.active_def]
    rw [getD_set_self _ _ _ _ hlen]
    refine ⟨imemUpdatedData config s inst d, IMemMap.find?_update_self hfind, ?_, ?_⟩
    · simp only [imemUpdatedData, hld, hst, ht]
      simp
    · obtain ⟨-, ml, mi⟩ := matchIncrements_branchFields config s d
      simp only [imemUpdatedData, hld, hst, ht]
      simp [ml, mi]
  · intro insts p hall
    exact imem_run_branchfree config p insts initState hall (by simp [initState]) (by
      intro d hd
      simp [initState, IMemState.active_def, IMemMap.find?] at hd)

/-- Concrete instantiation of `c10_branch_classification_taken_only`: a
taken branch at a previously seen PC pushes a set bit. -/
theorem c10_branch_classification_taken_only_witness :
    (({ pc := 16, opcode := 7, isTakenBranch := true } : STFInst).isTakenBranch = true) ∧
    (∃ d', IMemMap.find?
        (IMem.count_impl {}
          { imem_mapvec := [[(16, IMemData.create false 7 0 false true true 0)]],
            itv := 0, inst_count := 1 }
          { pc := 16, opcode := 7, isTakenBranch := true }).1.active 16 = some d' ∧
      d'.is_branch = true ∧
      d'.branch_lhr =
        (IMemData.create false 7 0 false true true 0).branch_lhr.set
          (IMemData.create false 7 0 false true true 0).branch_lhr_idx true) :=
  ⟨by decide,
   (c10_branch_classification_taken_only {}).2.2.1
     { imem_mapvec := [[(16, IMemData.create false 7 0 false true true 0)]],
       itv := 0, inst_count := 1 }
     { pc := 16, opcode := 7, isTakenBranch := true }
     (IMemData.create false 7 0 false true true 0)
     (by decide) (by decide) (by decide) (by decide) (by decide) (by decide)⟩

/-! ## Helper lemmas: the sorted (frequency-ranked) report -/

theorem keyLt_iff (a b : Nat × Nat) :
    keyLt a b = true ↔ (a.1 < b.1 ∨ (a.1 = b.1 ∧ b.2 < a.2)) := by
  simp [keyLt]

theorem keyLt_asymm {a b : Nat × Nat} (h : keyLt a b = true) : keyLt b a = false := by
  cases hba : keyLt b a with
  | false => rfl
  | true =>
    exfalso
    rw [keyLt_iff] at h
    have h2 := (keyLt_iff b a).mp hba
    omega

theorem keyLt_trans {a b c : Nat × Nat} (h1 : keyLt a b = true)
    (h2 : keyLt b c = true) : keyLt a c = true := by
  rw [keyLt_iff] at h1 h2 ⊢
  omega

theorem mem_mmInsert {b x : SortedBlock} :
    ∀ {l : List SortedBlock}, x ∈ mmInsert b l ↔ x = b ∨ x ∈ l := by
  intro l
  induction l with
  | nil => simp [mmInsert]
  | cons e rest ih =>
    simp only [mmInsert]
    split_ifs with h
    · simp [List.mem_cons]
    · simp only [List.mem_cons, ih]
      tauto

/-- The ascending multimap order: a predecessor is never strictly greater
than a successor under `SortedMapKey::operator<`. -/
def mmAsc (a c : SortedBlock) : Prop :=
  keyLt (c.count, c.pc) (a.count, a.pc) = false

theorem mmInsert_pairwise {b : SortedBlock} :
    ∀ {l : List SortedBlock}, List.Pairwise mmAsc l →
      List.Pairwise mmAsc (mmInsert b l) := by
  intro l
  induction l with
  | nil => intro _; simp [mmInsert]
  | cons e rest ih =>
    intro hp
    rw [List.pairwise_cons] at hp
    simp only [mmInsert]
    split_ifs with h
    · refine List.Pairwise.cons ?_ (List.Pairwise.cons hp.1 hp.2)
      intro x hx
      rcases List.mem_cons.mp hx with rfl | hx2
      · exact keyLt_asymm h
      · have hxe := hp.1 x hx2
        cases hxb : keyLt (x.count, x.pc) (b.count, b.pc) with
        | false => exact hxb
        | true =>
          exfalso
          have hxetrans := keyLt_trans hxb h
          rw [mmAsc, hxetrans] at hxe
          cases hxe
    · refine List.Pairwise.cons ?_ (ih hp.2)
      intro x hx
      rcases mem_mmInsert.mp hx with rfl | hx2
      · simpa [mmAsc] using h
      · exact hp.1 x hx2

theorem foldl_mmInsert_pairwise :
    ∀ (bs : List SortedBlock) (init : List SortedBlock),
      List.Pairwise mmAsc init →
      List.Pairwise mmAsc (bs.foldl (fun m b => mmInsert b m) init) := by
  intro bs
  induction bs with
  | nil => intro init h; simpa using h
  | cons b rest ih => intro init h; exact ih _ (mmInsert_pairwise h)

theorem mem_foldl_mmInsert {x : SortedBlock} :
    ∀ (bs : List SortedBlock) (init : List SortedBlock),
      x ∈ bs.foldl (fun m b => mmInsert b m) init → x ∈ bs ∨ x ∈ init := by
  intro bs
  induction bs with
  | nil => intro init h; exact Or.inr h
  | cons b rest ih =>
    intro init h
    rcases ih (mmInsert b init) h with h2 | h2
    · exact Or.inl (by simp [h2])
    · rcases mem_mmInsert.mp h2 with rfl | h3
      · exact Or.inl (by simp)
      · exact Or.inr h3

/-- Well-formedness of the flushed blocks: the stored `SortedMapKey` count is
the block's aggregate entry count, and the stored PC is the first entry's
PC. -/
def blocksWF (bs : List SortedBlock) : Prop :=
  ∀ b ∈ bs, b.count = IMemMap.entSum b.entries ∧
    ∃ e rest, b.entries = e :: rest ∧ b.pc = e.1

/-- Invariant of the in-flight block-grouping state. -/
def accWF (acc : BlockAcc) : Prop :=
  (acc.first = true → acc.current_block = []) ∧
  (acc.first = false → acc.current_block ≠ []) ∧
  acc.block_count = IMemMap.entSum acc.current_block ∧
  blocksWF acc.blocks

theorem entSum_append (l1 l2 : List (Nat × IMemData)) :
    IMemMap.entSum (l1 ++ l2) = IMemMap.entSum l1 + IMemMap.entSum l2 := by
  simp [IMemMap.entSum]

theorem blockStep_wf {acc : BlockAcc} {e : Nat × IMemData} (h : accWF acc) :
    accWF (blockStep acc e) := by
  obtain ⟨h1, h2, h3, h4⟩ := h
  simp only [blockStep]
  split_ifs with hf hb
  · refine ⟨by simp, by simp, ?_, h4⟩
    simp [entSum_append, IMemMap.entSum, h3]
  · -- boundary: flush the current block, then start a new one with e
    have hf' : acc.first = false := by simpa using hf
    refine ⟨by simp [hf'], by simp, by simp [IMemMap.entSum], ?_⟩
    intro b hb2
    rcases List.mem_append.mp hb2 with hb3 | hb3
    · exact h4 b hb3
    · simp only [List.mem_singleton] at hb3
      subst hb3
      obtain ⟨c, r, hcr⟩ := List.exists_cons_of_ne_nil (h2 hf')
      exact ⟨h3, c, r, hcr, by simp [hcr]⟩
  · have hf' : acc.first = false := by simpa using hf
    refine ⟨by simp [hf'], by simp, ?_, h4⟩
    simp [entSum_append, IMemMap.entSum, h3]

theorem blockFold_wf :
    ∀ (entries : List (Nat × IMemData)) (acc : BlockAcc), accWF acc →
      accWF (entries.foldl blockStep acc) := by
  intro entries
  induction entries with
  | nil => intro acc h; simpa using h
  | cons e rest ih => intro acc h; exact ih (blockStep acc e) (blockStep_wf h)

/-- Total entry count carried by a list of blocks. -/
def blocksEntSum (bs : List SortedBlock) : Nat :=
  (bs.map (fun b => IMemMap.entSum b.entries)).sum

theorem blockStep_sum (acc : BlockAcc) (e : Nat × IMemData) :
    blocksEntSum (blockStep acc e).blocks +
      IMemMap.entSum (blockStep acc e).current_block =
    blocksEntSum acc.blocks + IMemMap.entSum acc.current_block + e.2.count := by
  simp only [blockStep]
  split_ifs with hf hb <;>
    · simp only [blocksEntSum, IMemMap.entSum, List.map_append, List.sum_append,
        List.map_cons, List.sum_cons, List.map_nil, List.sum_nil]
      omega

theorem blockFold_sum :
    ∀ (entries : List (Nat × IMemData)) (acc : BlockAcc),
      blocksEntSum (entries.foldl blockStep acc).blocks +
        IMemMap.entSum (entries.foldl blockStep acc).current_block =
      blocksEntSum acc.blocks + IMemMap.entSum acc.current_block +
        IMemMap.entSum entries := by
  intro entries
  induction entries with
  | nil => intro acc; simp [IMemMap.entSum]
  | cons e rest ih =>
    intro acc
    have h1 := ih (blockStep acc e)
    have h2 := blockStep_sum acc e
    rw [List.foldl_cons]
    rw [h1]
    have h3 : IMemMap.entSum (e :: rest) = e.2.count + IMemMap.entSum rest := by
      simp [IMemMap.entSum]
    omega

theorem accWF_init : accWF ({} : BlockAcc) := by
  refine ⟨fun _ => rfl, by simp, by simp [IMemMap.entSum], by intro b hb; simp at hb⟩

theorem collectBlocks_wf (s : IMemState) : blocksWF (collectBlocks s) := by
  have hwf := blockFold_wf (linearEntries s) {} accWF_init
  obtain ⟨h1, h2, h3, h4⟩ := hwf
  rw [collectBlocks]
  split_ifs with hemp
  · exact h4
  · intro b hb
    rcases List.mem_append.mp hb with hb2 | hb2
    · exact h4 b hb2
    · simp only [List.mem_singleton] at hb2
      subst hb2
      have hne : ((linearEntries s).foldl blockStep {}).current_block ≠ [] := by
        intro hc
        rw [List.isEmpty_iff] at hemp
        exact hemp hc
      obtain ⟨c, r, hcr⟩ := List.exists_cons_of_ne_nil hne
      exact ⟨h3, c, r, hcr, by simp [hcr]⟩

theorem collectBlocks_sum (s : IMemState) :
    blocksEntSum (collectBlocks s) = IMemMap.entSum (linearEntries s) := by
  have hsum := blockFold_sum (linearEntries s) {}
  rw [collectBlocks]
  split_ifs with hemp
  · rw [List.isEmpty_iff] at hemp
    rw [hemp] at hsum
    simpa [blocksEntSum, IMemMap.entSum] using hsum
  · simp only [blocksEntSum, List.map_append, List.sum_append]
    simp only [blocksEntSum] at hsum
    simp [IMemMap.entSum] at hsum ⊢
    omega

theorem entSum_foldl_append :
    ∀ (ms : List IMemMap) (init : List (Nat × IMemData)),
      IMemMap.entSum (ms.foldl (fun acc m => acc ++ m) init) =
        IMemMap.entSum init + (ms.map IMemMap.entSum).sum := by
  intro ms
  induction ms with
  | nil => intro init; simp
  | cons m rest ih =>
    intro init
    rw [List.foldl_cons, ih (init ++ m), entSum_append]
    simp only [List.map_cons, List.sum_cons]
    omega

theorem entSum_linearEntries (s : IMemState) :
    IMemMap.entSum (linearEntries s) = s.sumCounts := by
  rw [linearEntries, linearTables, entSum_foldl_append]
  simp [IMemMap.entSum, IMemState.sumCounts, List.map_reverse, List.sum_reverse]

theorem blocksEntSum_mmInsert (b : SortedBlock) :
    ∀ (l : List SortedBlock),
      blocksEntSum (mmInsert b l) = IMemMap.entSum b.entries + blocksEntSum l := by
  intro l
  induction l with
  | nil => simp [mmInsert, blocksEntSum]
  | cons e rest ih =>
    simp only [mmInsert]
    split_ifs with h
    · simp [blocksEntSum]
    · simp only [blocksEntSum, List.map_cons, List.sum_cons] at *
      omega

theorem blocksEntSum_foldl :
    ∀ (bs : List SortedBlock) (init : List SortedBlock),
      blocksEntSum (bs.foldl (fun m b => mmInsert b m) init) =
        blocksEntSum bs + blocksEntSum init := by
  intro bs
  induction bs with
  | nil => intro init; simp [blocksEntSum]
  | cons b rest ih =>
    intro init
    rw [List.foldl_cons, ih (mmInsert b init), blocksEntSum_mmInsert]
    simp only [blocksEntSum, List.map_cons, List.sum_cons]
    omega

theorem cumulativeFinal_eq_sumCounts (s : IMemState) :
    cumulativeFinal s = s.sumCounts := by
  have h1 : cumulativeFinal s = blocksEntSum (sortedEmission s) := rfl
  rw [h1, sortedEmission]
  have h2 : blocksEntSum (sortedMapOf s).reverse = blocksEntSum (sortedMapOf s) := by
    simp [blocksEntSum, List.map_reverse, List.sum_reverse]
  rw [h2, sortedMapOf, blocksEntSum_foldl]
  rw [collectBlocks_sum, entSum_linearEntries]
  simp [blocksEntSum]

/-- **C5.** In the frequency-ranked report the blocks are emitted primarily
by descending aggregate execution count, ties broken by ascending starting
PC; every emitted block's stored count is the sum of its entries' counts and
its stored PC is its first entry's PC. -/
theorem c5_sorted_report_order (s : IMemState) :
    List.Pairwise
      (fun b1 b2 => b1.count > b2.count ∨ (b1.count = b2.count ∧ b1.pc ≤ b2.pc))
      (sortedEmission s) ∧
    ∀ b ∈ sortedEmission s, b.count = IMemMap.entSum b.entries ∧
      ∃ e rest, b.entries = e :: rest ∧ b.pc = e.1 := by
  constructor
  · have hp : List.Pairwise mmAsc (sortedMapOf s) :=
      foldl_mmInsert_pairwise (collectBlocks s) [] (by simp)
    have hrev : List.Pairwise
        (fun a b => keyLt ((a.count, a.pc)) ((b.count, b.pc)) = false)
        (sortedMapOf s).reverse := by
      rw [List.pairwise_reverse]
      exact hp
    refine hrev.imp ?_
    intro a b h
    have hni : keyLt (a.count, a.pc) (b.count, b.pc) ≠ true := by simp [h]
    have h2 : ¬(a.count < b.count ∨ (a.count = b.count ∧ b.pc < a.pc)) := by
      intro hc
      apply hni
      apply (keyLt_iff _ _).mpr
      simpa using hc
    omega
  · intro b hb
    have hmem : b ∈ sortedMapOf s := List.mem_reverse.mp hb
    rcases mem_foldl_mmInsert (collectBlocks s) [] hmem with h | h
    · exact collectBlocks_wf s b h
    · simp at h

/-! ## Claim C1: admitted-event count conservation -/

theorem imemNewData_count (config : STFImemConfig) (s : IMemState) (inst : STFInst) :
    (imemNewData config s inst).count = 1 := by
  simp only [imemNewData]
  split_ifs <;> simp

theorem imemUpdatedData_count (config : STFImemConfig) (s : IMemState)
    (inst : STFInst) (d : IMemData) :
    (imemUpdatedData config s inst d).count = d.count + 1 := by
  simp only [imemUpdatedData]
  split_ifs <;> simp [matchIncrements_count]

theorem countSum_set_insert (l : List IMemMap) (i key : Nat) (v : IMemData)
    (hfresh : IMemMap.find? (l.getD i []) key = none) (hlen : i < l.length) :
    ((l.set i (IMemMap.insert (l.getD i []) key v)).map IMemMap.entSum).sum =
      (l.map IMemMap.entSum).sum + v.count := by
  have h1 := mapSum_set IMemMap.entSum ([] : IMemMap) l i
    (IMemMap.insert (l.getD i []) key v) hlen
  have h2 := @IMemMap.sum_insert_fresh (l.getD i []) key v
    (fun e => e.2.count) hfresh
  simp only [IMemMap.entSum] at h1
  simp only [] at h2
  omega

theorem countSum_set_update (l : List IMemMap) (i key : Nat) (d d' : IMemData)
    (hfind : IMemMap.find? (l.getD i []) key = some d) (hlen : i < l.length) :
    ((l.set i (IMemMap.update (l.getD i []) key (fun _ => d'))).map
        IMemMap.entSum).sum + d.count =
      (l.map IMemMap.entSum).sum + d'.count := by
  have h1 := mapSum_set IMemMap.entSum ([] : IMemMap) l i
    (IMemMap.update (l.getD i []) key (fun _ => d')) hlen
  have h2 := @IMemMap.sum_update (l.getD i []) key d d'
    (fun e => e.2.count) hfind
  simp only [IMemMap.entSum] at h1
  simp only [] at h2
  omega

theorem imem_step_sum (config : STFImemConfig) (s : IMemState) (inst : STFInst)
    (hlen : s.itv < s.imem_mapvec.length) :
    (IMem.count_impl config s inst).1.sumCounts + (IMem.count_impl config s inst).2 =
      s.sumCounts + 1 := by
  rcases hfind : IMemMap.find? (s.imem_mapvec.getD s.itv []) inst.pc with _ | d
  · rw [IMem.count_impl_create config s inst hfind]
    simp only [IMemState.sumCounts, IMemState.active_def]
    have h := countSum_set_insert s.imem_mapvec s.itv inst.pc
      (imemNewData config s inst) hfind hlen
    have h2 := imemNewData_count config s inst
    omega
  · by_cases hop : d.opcode = inst.opcode
    · rw [IMem.count_impl_match config s inst d hfind hop]
      simp only [IMemState.sumCounts, IMemState.active_def]
      have h := countSum_set_update s.imem_mapvec s.itv inst.pc d
        (imemUpdatedData config s inst d) hfind hlen
      have h2 := imemUpdatedData_count config s inst d
      omega
    · rw [IMem.count_impl_mismatch config s inst d hfind hop]

theorem java_fallback_sum (config : STFImemConfig) (s : IMemState) (inst : STFInst)
    (hlen : s.itv < s.imem_mapvec.length) :
    (JavaIMem.fallback config s inst).1.sumCounts = s.sumCounts + 1 ∧
    (JavaIMem.fallback config s inst).2 = 0 ∧
    (JavaIMem.fallback config s inst).1.itv <
      (JavaIMem.fallback config s inst).1.imem_mapvec.length ∧
    (JavaIMem.fallback config s inst).1.inst_count = s.inst_count := by
  rcases hsearch : javaSearch s.imem_mapvec inst.pc inst.opcode 0 none with ⟨f, itt⟩
  cases f with
  | some i =>
    obtain ⟨d', hi, hd', hop, heq⟩ := java_fallback_found config s inst i itt hsearch
    rw [heq]
    refine ⟨?_, rfl, by simpa using hi, rfl⟩
    simp only [IMemState.sumCounts]
    have h := countSum_set_update s.imem_mapvec i inst.pc d'
      ((matchIncrements config s d').1) hd' hi
    have h2 := matchIncrements_count config s d'
    omega
  | none =>
    cases itt with
    | none =>
      obtain ⟨-, heq⟩ := java_fallback_newmap config s inst hsearch
      rw [heq]
      refine ⟨?_, rfl, by simp, rfl⟩
      simp only [IMemState.sumCounts, List.map_cons, List.sum_cons]
      have h2 := IMemData.create_count inst.isOpcode16 inst.opcode 0
        (decide (s.inst_count < config.warmup_count)) false false 0
      simp only [IMemMap.entSum, List.map_cons, List.map_nil, List.sum_cons,
        List.sum_nil]
      omega
    | some j =>
      obtain ⟨hj, hnone, heq⟩ := java_fallback_existing config s inst j hsearch
      by_cases hact : (IMemMap.find? s.active inst.pc).isSome
      · have htgt : (if (IMemMap.find? s.active inst.pc).isSome then j else s.itv) = j := by
          rw [hact]
          simp
        rw [htgt] at heq
        rw [heq]
        refine ⟨?_, rfl, by simpa using hj, rfl⟩
        simp only [IMemState.sumCounts]
        have h := countSum_set_insert s.imem_mapvec j inst.pc
          (IMemData.create inst.isOpcode16 inst.opcode 0
            (decide (s.inst_count < config.warmup_count)) false false 0) hnone hj
        have h2 := IMemData.create_count inst.isOpcode16 inst.opcode 0
          (decide (s.inst_count < config.warmup_count)) false false 0
        omega
      · have hact' : IMemMap.find? (s.imem_mapvec.getD s.itv []) inst.pc = none := by
          rw [IMemState.active_def] at hact
          exact Option.not_isSome_iff_eq_none.mp hact
        have htgt : (if (IMemMap.find? s.active inst.pc).isSome then j else s.itv) = s.itv := by
          have hactb : (IMemMap.find? s.active inst.pc).isSome = false := by
            simpa using hact
          rw [hactb]
          simp
        rw [htgt] at heq
        rw [heq]
        refine ⟨?_, rfl, by simpa using hlen, rfl⟩
        simp only [IMemState.sumCounts]
        have h := countSum_set_insert s.imem_mapvec s.itv inst.pc
          (IMemData.create inst.isOpcode16 inst.opcode 0
            (decide (s.inst_count < config.warmup_count)) false false 0) hact' hlen
        have h2 := IMemData.create_count inst.isOpcode16 inst.opcode 0
          (decide (s.inst_count < config.warmup_count)) false false 0
        omega

theorem java_step_sum (config : STFImemConfig) (s : IMemState) (inst : STFInst)
    (hlen : s.itv < s.imem_mapvec.length) :
    (JavaIMem.count_impl config s inst).1.sumCounts +
        (JavaIMem.count_impl config s inst).2 = s.sumCounts + 1 ∧
    (JavaIMem.count_impl config s inst).1.itv <
      (JavaIMem.count_impl config s inst).1.imem_mapvec.length ∧
    (JavaIMem.count_impl config s inst).1.inst_count = s.inst_count := by
  rcases hfind : IMemMap.find? (s.imem_mapvec.getD s.itv []) inst.pc with _ | d
  · have hci : JavaIMem.count_impl config s inst = JavaIMem.fallback config s inst := by
      simp only [JavaIMem.count_impl, IMemState.active_def, hfind]
    rw [hci]
    obtain ⟨h1, h2, h3, h4⟩ := java_fallback_sum config s inst hlen
    exact ⟨by omega, h3, h4⟩
  · by_cases hop : d.opcode = inst.opcode
    · have hci : JavaIMem.count_impl config s inst =
          ({ s with
              imem_mapvec := s.imem_mapvec.set s.itv
                (IMemMap.update (s.imem_mapvec.getD s.itv []) inst.pc
                  (fun _ => (matchIncrements config s d).1)),
              max_count := (matchIncrements config s d).2.1,
              max_warmup := (matchIncrements config s d).2.2.1,
              max_run_length := (matchIncrements config s d).2.2.2 }, 0) := by
        simp only [JavaIMem.count_impl, IMemState.active_def, hfind, if_pos hop]
      rw [hci]
      refine ⟨?_, by simpa using hlen, rfl⟩
      simp only [IMemState.sumCounts]
      have h := countSum_set_update s.imem_mapvec s.itv inst.pc d
        ((matchIncrements config s d).1) hfind hlen
      have h2 := matchIncrements_count config s d
      omega
    · have hci : JavaIMem.count_impl config s inst = JavaIMem.fallback config s inst := by
        simp only [JavaIMem.count_impl, IMemState.active_def, hfind, if_neg hop]
      rw [hci]
      obtain ⟨h1, h2, h3, h4⟩ := java_fallback_sum config s inst hlen
      exact ⟨by omega, h3, h4⟩

theorem java_warn_zero (config : STFImemConfig) (s : IMemState) (inst : STFInst) :
    (JavaIMem.count_impl config s inst).2 = 0 := by
  have hfall : (JavaIMem.fallback config s inst).2 = 0 := by
    rcases hsearch : javaSearch s.imem_mapvec inst.pc inst.opcode 0 none with ⟨f, itt⟩
    cases f with
    | some i =>
      simp only [JavaIMem.fallback, hsearch]
      rcases hv : IMemMap.find? (s.imem_mapvec.getD i []) inst.pc with _ | d'
      · simp
      · simp
    | none =>
      cases itt with
      | none => simp only [JavaIMem.fallback, hsearch]
      | some j => simp only [JavaIMem.fallback, hsearch]
  rcases hfind : IMemMap.find? (s.imem_mapvec.getD s.itv []) inst.pc with _ | d
  · simpa only [JavaIMem.count_impl, IMemState.active_def, hfind] using hfall
  · by_cases hop : d.opcode = inst.opcode
    · simp only [JavaIMem.count_impl, IMemState.active_def, hfind, if_pos hop]
    · simpa only [JavaIMem.count_impl, IMemState.active_def, hfind, if_neg hop]
        using hfall

theorem processList_sum (ci : STFImemConfig → IMemState → STFInst → IMemState × Nat)
    (config : STFImemConfig)
    (hstep : ∀ s inst, s.itv < s.imem_mapvec.length →
      (ci config s inst).1.sumCounts + (ci config s inst).2 = s.sumCounts + 1 ∧
      (ci config s inst).1.itv < (ci config s inst).1.imem_mapvec.length ∧
      (ci config s inst).1.inst_count = s.inst_count) :
    ∀ (insts : List STFInst) (s : IMemState), s.itv < s.imem_mapvec.length →
      (processList ci config s insts).1.sumCounts +
          (processList ci config s insts).2 + s.inst_count =
        s.sumCounts + (processList ci config s insts).1.inst_count ∧
      (processList ci config s insts).1.itv <
        (processList ci config s insts).1.imem_mapvec.length := by
  intro insts
  induction insts with
  | nil =>
    intro s hlen
    exact ⟨by simp [processList], by simpa [processList] using hlen⟩
  | cons inst rest ih =>
    intro s hlen
    simp only [processList]
    split_ifs with h1 h2 h3 h4 h5
    · exact ih s hlen
    · exact ih s hlen
    · exact ih s hlen
    · exact ih s hlen
    · obtain ⟨hsum, hitv, hic⟩ := hstep s inst hlen
      refine ⟨?_, by simpa using hitv⟩
      simp only [IMemState.sumCounts] at hsum ⊢
      omega
    · obtain ⟨hsum, hitv, hic⟩ := hstep s inst hlen
      have hih := ih
        { (ci config s inst).1 with
          inst_count := (ci config s inst).1.inst_count + 1 }
        (by simpa using hitv)
      refine ⟨?_, hih.2⟩
      obtain ⟨hihsum, -⟩ := hih
      simp only [IMemState.sumCounts] at hsum hihsum ⊢
      omega

theorem processList_warn_zero
    (ci : STFImemConfig → IMemState → STFInst → IMemState × Nat)
    (config : STFImemConfig) (h : ∀ s inst, (ci config s inst).2 = 0) :
    ∀ (insts : List STFInst) (s : IMemState),
      (processList ci config s insts).2 = 0 := by
  intro insts
  induction insts with
  | nil => intro s; simp [processList]
  | cons inst rest ih =>
    intro s
    simp only [processList]
    split_ifs with h1 h2 h3 h4 h5
    · exact ih s
    · exact ih s
    · exact ih s
    · exact ih s
    · exact h s inst
    · rw [h s inst, ih]

/-- **C1 (amended).** Over any run, the sum of per-entry total counts across
all footprint tables plus the number of opcode-mismatch warnings equals the
number of admitted events N (`inst_count_`); since the `JavaIMem` variant
never warns, its table counts always sum to exactly N.  The sorted report's
final `cumulative_count` always equals the table-count sum, so the
end-of-report assertion `cumulative_count == inst_count_` holds exactly
when no mismatch warning was emitted — always, for `JavaIMem`. -/
theorem c1_count_conservation (config : STFImemConfig) (insts : List STFInst) :
    (IMem.processTrace config insts).1.sumCounts + (IMem.processTrace config insts).2 =
      (IMem.processTrace config insts).1.inst_count ∧
    cumulativeFinal (IMem.processTrace config insts).1 +
        (IMem.processTrace config insts).2 =
      (IMem.processTrace config insts).1.inst_count ∧
    (JavaIMem.processTrace config insts).2 = 0 ∧
    (JavaIMem.processTrace config insts).1.sumCounts =
      (JavaIMem.processTrace config insts).1.inst_count ∧
    cumulativeFinal (JavaIMem.processTrace config insts).1 =
      (JavaIMem.processTrace config insts).1.inst_count := by
  have hinit : initState.itv < initState.imem_mapvec.length := by
    simp [initState]
  have h0sum : initState.sumCounts = 0 := by
    simp [initState, IMemState.sumCounts, IMemMap.entSum]
  have h0ic : initState.inst_count = 0 := rfl
  have hstepI : ∀ s inst, s.itv < s.imem_mapvec.length →
      (IMem.count_impl config s inst).1.sumCounts +
          (IMem.count_impl config s inst).2 = s.sumCounts + 1 ∧
      (IMem.count_impl config s inst).1.itv <
        (IMem.count_impl config s inst).1.imem_mapvec.length ∧
      (IMem.count_impl config s inst).1.inst_count = s.inst_count := by
    intro s inst hl
    obtain ⟨hitv, hmlen, hic⟩ := imem_step_itv_len config s inst
    exact ⟨imem_step_sum config s inst hl, by omega, hic⟩
  have hI := processList_sum IMem.count_impl config hstepI insts initState hinit
  have hJ := processList_sum JavaIMem.count_impl config
    (fun s inst hl => java_step_sum config s inst hl) insts initState hinit
  have hW := processList_warn_zero JavaIMem.count_impl config
    (java_warn_zero config) insts initState
  have hIc : IMem.processTrace config insts = processList IMem.count_impl config initState insts := rfl
  have hJc : JavaIMem.processTrace config insts = processList JavaIMem.count_impl config initState insts := rfl
  rw [hIc, hJc]
  rw [h0sum, h0ic] at hI hJ
  refine ⟨by omega, ?_, hW, by omega, ?_⟩
  · rw [cumulativeFinal_eq_sumCounts]
    omega
  · rw [cumulativeFinal_eq_sumCounts]
    omega

/-- Counterexample to C1 as frozen: the `IMem` variant admits an event whose
PC carries a different opcode than the stored entry (PC 16 holds opcode 1,
the second event carries opcode 2); it is counted into `inst_count_` but no
entry is created or incremented, so the table-count sum (1) differs from
N = 2 and the sorted report's cumulative count trips the consistency
assertion. -/
theorem c1_counterexample_mismatch_undercount :
    (IMem.processTrace {} [{ pc := 16, opcode := 1 }, { pc := 16, opcode := 2 }]).1.sumCounts ≠
      (IMem.processTrace {} [{ pc := 16, opcode := 1 },
        { pc := 16, opcode := 2 }]).1.inst_count ∧
    cumulativeFinal
        (IMem.processTrace {} [{ pc := 16, opcode := 1 }, { pc := 16, opcode := 2 }]).1 ≠
      (IMem.processTrace {} [{ pc := 16, opcode := 1 },
        { pc := 16, opcode := 2 }]).1.inst_count := by
  refine ⟨by decide, by decide⟩

/-! ## Claim C4: linear report emission order -/

theorem getD_mem {α : Type} (l : List α) (i : Nat) (d : α) (h : i < l.length) :
    l.getD i d ∈ l := by
  have heq : l.getD i d = l[i] := by
    simp [List.getD, List.getElem?_eq_getElem, h]
  rw [heq]
  exact l.getElem_mem h

theorem getD_default {α : Type} (l : List α) (i : Nat) (d : α)
    (h : l.length ≤ i) : l.getD i d = d := by
  simp [List.getD, List.getElem?_eq_none h]

/-- All footprint tables have strictly ascending keys. -/
def allSorted (s : IMemState) : Prop :=
  ∀ m ∈ s.imem_mapvec, List.Pairwise (fun a b => a.1 < b.1) m

theorem active_sorted {s : IMemState} (h : allSorted s) :
    List.Pairwise (fun a b => a.1 < b.1) (s.imem_mapvec.getD s.itv []) := by
  by_cases hl : s.itv < s.imem_mapvec.length
  · exact h _ (getD_mem s.imem_mapvec s.itv [] hl)
  · rw [getD_default s.imem_mapvec s.itv [] (Nat.le_of_not_lt hl)]
    exact List.Pairwise.nil

theorem sorted_at {s : IMemState} (h : allSorted s) (i : Nat) :
    List.Pairwise (fun a b => a.1 < b.1) (s.imem_mapvec.getD i []) := by
  by_cases hl : i < s.imem_mapvec.length
  · exact h _ (getD_mem s.imem_mapvec i [] hl)
  · rw [getD_default s.imem_mapvec i [] (Nat.le_of_not_lt hl)]
    exact List.Pairwise.nil

theorem imem_step_allSorted (config : STFImemConfig) (s : IMemState)
    (inst : STFInst) (h : allSorted s) :
    allSorted (IMem.count_impl config s inst).1 := by
  rcases hfind : IMemMap.find? (s.imem_mapvec.getD s.itv []) inst.pc with _ | d
  · rw [IMem.count_impl_create config s inst hfind]
    intro m hm
    rcases List.mem_or_eq_of_mem_set hm with hm' | rfl
    · exact h m hm'
    · exact IMemMap.insert_pairwise (active_sorted h) hfind
  · by_cases hop : d.opcode = inst.opcode
    · rw [IMem.count_impl_match config s inst d hfind hop]
      intro m hm
      rcases List.mem_or_eq_of_mem_set hm with hm' | rfl
      · exact h m hm'
      · exact IMemMap.update_pairwise (active_sorted h)
    · rw [IMem.count_impl_mismatch config s inst d hfind hop]
      exact h

theorem java_fallback_allSorted (config : STFImemConfig) (s : IMemState)
    (inst : STFInst) (h : allSorted s) :
    allSorted (JavaIMem.fallback config s inst).1 := by
  rcases hsearch : javaSearch s.imem_mapvec inst.pc inst.opcode 0 none with ⟨f, itt⟩
  cases f with
  | some i =>
    obtain ⟨d', hi, hd', hop, heq⟩ := java_fallback_found config s inst i itt hsearch
    rw [heq]
    intro m hm
    rcases List.mem_or_eq_of_mem_set hm with hm' | rfl
    · exact h m hm'
    · exact IMemMap.update_pairwise (sorted_at h i)
  | none =>
    cases itt with
    | none =>
      obtain ⟨-, heq⟩ := java_fallback_newmap config s inst hsearch
      rw [heq]
      intro m hm
      rcases List.mem_cons.mp hm with rfl | hm'
      · exact List.pairwise_singleton _ _
      · exact h m hm'
    | some j =>
      obtain ⟨hj, hnone, heq⟩ := java_fallback_existing config s inst j hsearch
      by_cases hact : (IMemMap.find? s.active inst.pc).isSome
      · have htgt : (if (IMemMap.find? s.active inst.pc).isSome then j else s.itv) = j := by
          rw [hact]; simp
        rw [htgt] at heq
        rw [heq]
        intro m hm
        rcases List.mem_or_eq_of_mem_set hm with hm' | rfl
        · exact h m hm'
        · exact IMemMap.insert_pairwise (sorted_at h j) hnone
      · have hact' : IMemMap.find? (s.imem_mapvec.getD s.itv []) inst.pc = none := by
          rw [IMemState.active_def] at hact
          exact Option.not_isSome_iff_eq_none.mp hact
        have htgt : (if (IMemMap.find? s.active inst.pc).isSome then j else s.itv) = s.itv := by
          have hactb : (IMemMap.find? s.active inst.pc).isSome = false := by
            simpa using hact
          rw [hactb]; simp
        rw [htgt] at heq
        rw [heq]
        intro m hm
        rcases List.mem_or_eq_of_mem_set hm with hm' | rfl
        · exact h m hm'
        · exact IMemMap.insert_pairwise (active_sorted h) hact'

theorem java_step_allSorted (config : STFImemConfig) (s : IMemState)
    (inst : STFInst) (h : allSorted s) :
    allSorted (JavaIMem.count_impl config s inst).1 := by
  rcases hfind : IMemMap.find? (s.imem_mapvec.getD s.itv []) inst.pc with _ | d
  · have hci : JavaIMem.count_impl config s inst = JavaIMem.fallback config s inst := by
      simp only [JavaIMem.count_impl, IMemState.active_def, hfind]
    rw [hci]
    exact java_fallback_allSorted config s inst h
  · by_cases hop : d.opcode = inst.opcode
    · have hci : JavaIMem.count_impl config s inst =
          ({ s with
              imem_mapvec := s.imem_mapvec.set s.itv
                (IMemMap.update (s.imem_mapvec.getD s.itv []) inst.pc
                  (fun _ => (matchIncrements config s d).1)),
              max_count := (matchIncrements config s d).2.1,
              max_warmup := (matchIncrements config s d).2.2.1,
              max_run_length := (matchIncrements config s d).2.2.2 }, 0) := by
        simp only [JavaIMem.count_impl, IMemState.active_def, hfind, if_pos hop]
      rw [hci]
      intro m hm
      rcases List.mem_or_eq_of_mem_set hm with hm' | rfl
      · exact h m hm'
      · exact IMemMap.update_pairwise (active_sorted h)
    · have hci : JavaIMem.count_impl config s inst = JavaIMem.fallback config s inst := by
        simp only [JavaIMem.count_impl, IMemState.active_def, hfind, if_neg hop]
      rw [hci]
      exact java_fallback_allSorted config s inst h

theorem processList_allSorted
    (ci : STFImemConfig → IMemState → STFInst → IMemState × Nat)
    (config : STFImemConfig)
    (hstep : ∀ s inst, allSorted s → allSorted (ci config s inst).1) :
    ∀ (insts : List STFInst) (s : IMemState), allSorted s →
      allSorted (processList ci config s insts).1 := by
  intro insts
  induction insts with
  | nil => intro s h; simpa [processList] using h
  | cons inst rest ih =>
    intro s h
    simp only [processList]
    split_ifs with h1 h2 h3 h4 h5
    · exact ih s h
    · exact ih s h
    · exact ih s h
    · exact ih s h
    · exact hstep s inst h
    · exact ih _ (hstep s inst h)

/-- The table-vector shape of one `JavaIMem.count_impl` step: either an
existing table is replaced in place (`std::vector::operator[]` through the
active/found/fallback iterator) or a brand-new table is inserted at the
*front* of the vector — tables are never created anywhere else, so the
front-to-back vector order is most-recently-created first. -/
theorem java_fallback_table_shape (config : STFImemConfig) (s : IMemState)
    (inst : STFInst) :
    (∃ i mm, (JavaIMem.fallback config s inst).1.imem_mapvec =
       s.imem_mapvec.set i mm) ∨
    (∃ mm, (JavaIMem.fallback config s inst).1.imem_mapvec =
       mm :: s.imem_mapvec) := by
  rcases hsearch : javaSearch s.imem_mapvec inst.pc inst.opcode 0 none with ⟨f, itt⟩
  cases f with
  | some i =>
    obtain ⟨d', hi, hd', hop, heq⟩ := java_fallback_found config s inst i itt hsearch
    exact Or.inl ⟨i, _, by rw [heq]⟩
  | none =>
    cases itt with
    | none =>
      obtain ⟨-, heq⟩ := java_fallback_newmap config s inst hsearch
      exact Or.inr ⟨_, by rw [heq]⟩
    | some j =>
      obtain ⟨hj, hnone, heq⟩ := java_fallback_existing config s inst j hsearch
      exact Or.inl ⟨(if (IMemMap.find? s.active inst.pc).isSome then j else s.itv),
        IMemMap.insert
          (s.imem_mapvec.getD
            (if (IMemMap.find? s.active inst.pc).isSome then j else s.itv) [])
          inst.pc
          (IMemData.create inst.isOpcode16 inst.opcode 0
            (decide (s.inst_count < config.warmup_count)) false false 0),
        by rw [heq]⟩

theorem java_step_table_shape (config : STFImemConfig) (s : IMemState)
    (inst : STFInst) :
    (∃ i mm, (JavaIMem.count_impl config s inst).1.imem_mapvec =
       s.imem_mapvec.set i mm) ∨
    (∃ mm, (JavaIMem.count_impl config s inst).1.imem_mapvec =
       mm :: s.imem_mapvec) := by
  rcases hfind : IMemMap.find? (s.imem_mapvec.getD s.itv []) inst.pc with _ | d
  · have hci : JavaIMem.count_impl config s inst = JavaIMem.fallback config s inst := by
      simp only [JavaIMem.count_impl, IMemState.active_def, hfind]
    rw [hci]
    exact java_fallback_table_shape config s inst
  · by_cases hop : d.opcode = inst.opcode
    · have hci : JavaIMem.count_impl config s inst =
          ({ s with
              imem_mapvec := s.imem_mapvec.set s.itv
                (IMemMap.update (s.imem_mapvec.getD s.itv []) inst.pc
                  (fun _ => (matchIncrements config s d).1)),
              max_count := (matchIncrements config s d).2.1,
              max_warmup := (matchIncrements config s d).2.2.1,
              max_run_length := (matchIncrements config s d).2.2.2 }, 0) := by
        simp only [JavaIMem.count_impl, IMemState.active_def, hfind, if_pos hop]
      rw [hci]
      exact Or.inl ⟨s.itv, _, rfl⟩
    · have hci : JavaIMem.count_impl config s inst = JavaIMem.fallback config s inst := by
        simp only [JavaIMem.count_impl, IMemState.active_def, hfind, if_neg hop]
      rw [hci]
      exact java_fallback_table_shape config s inst

/-- Modelled from the spec: the spec's linear-report table order — "tables
are emitted from most-recently-created to first-created order".  Since the
profiler only ever creates a table by inserting it at the front of
`imem_mapvec_` (see `java_step_table_shape`), front-to-back vector order is
most-recently-created first, and the spec's emission order is the vector
itself. -/
def spec_linearTables (s : IMemState) : List IMemMap :=
  s.imem_mapvec

/-- **C4 (amended).** `IMemMapVec::print` walks the table vector with
*reverse* iterators while new tables are only ever inserted at the front,
so the linear report emits the footprint tables from FIRST-created to
most-recently-created order (the reverse of the claim); within each table
the entries are emitted in strictly ascending PC order, in both profiler
variants. -/
theorem c4_linear_report_order (config : STFImemConfig) (insts : List STFInst) :
    (∀ m ∈ linearTables (JavaIMem.processTrace config insts).1,
       List.Pairwise (fun a b => a.1 < b.1) m) ∧
    (∀ m ∈ linearTables (IMem.processTrace config insts).1,
       List.Pairwise (fun a b => a.1 < b.1) m) ∧
    (∀ (s : IMemState) (inst : STFInst),
       (∃ i mm, (JavaIMem.count_impl config s inst).1.imem_mapvec =
          s.imem_mapvec.set i mm) ∨
       (∃ mm, (JavaIMem.count_impl config s inst).1.imem_mapvec =
          mm :: s.imem_mapvec)) ∧
    linearTables (JavaIMem.processTrace config insts).1 =
      (JavaIMem.processTrace config insts).1.imem_mapvec.reverse := by
  have hinit : allSorted initState := by
    intro m hm
    simp only [initState] at hm
    simp at hm
    simp [hm]
  refine ⟨?_, ?_, java_step_table_shape config, rfl⟩
  · intro m hm
    exact processList_allSorted JavaIMem.count_impl config
      (java_step_allSorted config) insts initState hinit m (List.mem_reverse.mp hm)
  · intro m hm
    exact processList_allSorted IMem.count_impl config
      (imem_step_allSorted config) insts initState hinit m (List.mem_reverse.mp hm)

/-- Counterexample to C4 as frozen: running the Java profiler on two events
at PC 16 with opcodes 1 then 2 creates a second table at the front of the
vector (the most recently created one, holding opcode 2), yet the linear
report emits the first-created table (opcode 1) first: the emission order
is the reverse of the spec's most-recently-created-first order. -/
theorem c4_counterexample_table_order :
    linearTables
        (JavaIMem.processTrace {} [{ pc := 16, opcode := 1 },
          { pc := 16, opcode := 2 }]).1 ≠
      spec_linearTables
        (JavaIMem.processTrace {} [{ pc := 16, opcode := 1 },
          { pc := 16, opcode := 2 }]).1 := by
  decide

/-- Concrete instantiation of `c9_morph_id_radix`: the digit string "123"
parses as 123 for a sequence-index morph and as 0x123 = 291 for a PC
morph. -/
theorem c9_morph_id_radix_witness :
    ([1, 2, 3] : List Nat) ≠ [] ∧
    (convertMorphId MorphType.STFID (renderDec [1, 2, 3]) =
       some (ofDigits 10 [1, 2, 3]) ∧
     convertMorphId MorphType.PC (renderDec [1, 2, 3]) =
       some (ofDigits 16 [1, 2, 3])) :=
  ⟨by decide,
   c9_morph_id_radix [1, 2, 3] (by decide) (by decide) (by decide) (by decide)⟩

end StfTools
